import Mathlib

/-!
Verification development for `robustclust/active_learning.py`: active
query selection for constrained clustering (FFQS, MMFFQS, ACD, and the
constraint assembler `get_constraints`).

The Python source is shallowly embedded below.  Machine integers are
`Nat`/`Int`; numpy float distances are modelled as the abstract pairwise
metric `d : Nat -> Nat -> Rat` supplied by the Pairwise Metric Provider
(`utils.pdist` / `pdist_block` are not part of the core source; the spec
fixes their contract).  Randomness (`np.random.*`) is modelled by
injected oracle values, as the spec requires ("Randomness ... must be
isolated behind an injectable random-number source").  Fallible numpy
operations (reductions over empty arrays, invalid shapes) return
`Except`.  Loops are embedded as fuel recursion with fuel chosen at
least as large as the number of iterations that the source can perform.
-/

deriving instance DecidableEq for Except

namespace RobustClust

/-! ### Generic list helpers (numpy primitives) -/

/-- Maximum of a list of naturals, 0 for the empty list; models
`np.max` on a (nonnegative integer valued) label array. -/
def maxL (l : List ℕ) : ℕ := l.foldr max 0

/-- First index attaining the maximum, given the head as current best;
models the tail recursion of `np.argmax` (first occurrence wins). -/
def argmaxAux : List ℚ → ℚ → ℕ → ℕ → ℕ
  | [], _, best, _ => best
  | x :: xs, bv, best, cur =>
    if bv < x then argmaxAux xs x cur (cur + 1)
    else argmaxAux xs bv best (cur + 1)

/-- Index of the first maximal element; models `np.argmax` (0 on the
empty list, which the source never evaluates: numpy raises there). -/
def argmaxQ : List ℚ → ℕ
  | [] => 0
  | x :: xs => argmaxAux xs x 0 1

/-- First index attaining the minimum (helper for `argminQ`). -/
def argminAux : List ℚ → ℚ → ℕ → ℕ → ℕ
  | [], _, best, _ => best
  | x :: xs, bv, best, cur =>
    if x < bv then argminAux xs x cur (cur + 1)
    else argminAux xs bv best (cur + 1)

/-- Index of the first minimal element; models `np.argmin`. -/
def argminQ : List ℚ → ℕ
  | [] => 0
  | x :: xs => argminAux xs x 0 1

/-- Minimum of a list of rationals (0 on the empty list, never used
there); models `np.min` along an axis of a nonempty block. -/
def minD : List ℚ → ℚ
  | [] => 0
  | x :: xs => xs.foldl min x

/-- Maximum of a list of rationals (0 on the empty list, never used
there); models `np.max` along an axis of a nonempty block. -/
def maxD : List ℚ → ℚ
  | [] => 0
  | x :: xs => xs.foldl max x

/-- Insert an index into a list of indices kept sorted by
descending key. -/
def insDesc {α : Type} [LinearOrder α] (key : ℕ → α) (i : ℕ) : List ℕ → List ℕ
  | [] => [i]
  | j :: js => if key j < key i then i :: j :: js else j :: insDesc key i js

/-- Insertion sort of indices by descending key. -/
def sortDesc {α : Type} [LinearOrder α] (key : ℕ → α) : List ℕ → List ℕ
  | [] => []
  | j :: js => insDesc key j (sortDesc key js)

/-- Models `np.argsort(-v)`: the indices `0..v.length-1` ordered by
descending value.  (numpy's quicksort fixes no tie order; the embedding
uses a deterministic insertion sort, which is immaterial for every
property proved below.) -/
def argsortDesc {α : Type} [LinearOrder α] [Zero α] (v : List α) : List ℕ :=
  sortDesc (fun i => v.getD i 0) (List.range v.length)

/-- Models `np.unique` on a list of point indices all below `N`:
sorted ascending, duplicates removed. -/
def sortedUniqueBelow (N : ℕ) (l : List ℕ) : List ℕ :=
  (List.range N).filter (fun p => l.contains p)

/-- Number of distinct nonzero values of a label vector; models
`np.setdiff1d(np.unique(nbr_label), [0]).size`. -/
def distinctNonzero (l : List ℕ) : ℕ := (l.toFinset.erase 0).card

/-- Number of distinct true classes; models `np.unique(labels).size`. -/
def numClass (labels : List ℤ) : ℕ := labels.toFinset.card

/-! ### Modelled external collaborators

`utils.py` (`pdist_idx`, `pdist_block`, `affinity`, `all_pairwise`) is
not under `src/`; the spec fixes its contract in section 6. -/

/-- Modelled from the spec: `to_affinity` is a monotone-decreasing
transform of distance with bounded range; we use `1 / (1 + d)`, bounded
in `(0, 1]` for nonnegative distances.  Written via `mkRat` for a
denominator of `1 + d` so that it evaluates by kernel reduction;
`affT_eq_one_div` below proves it equal to `1 / (1 + d)`. -/
def affT (r : ℚ) : ℚ := mkRat (r.den : ℤ) (r.num + (r.den : ℤ)).toNat

/-- The affinity block lookup `pdist_block(paff_vec, a, b)` for
`paff_vec = affinity(pdist_vec)`. -/
def affQ (d : ℕ → ℕ → ℚ) (i j : ℕ) : ℚ := affT (d i j)

/-- Modelled from the spec: `expand_links` / `utils.all_pairwise` maps a
neighborhood-label vector to the dense link matrix: 1 for a pair sharing
a nonzero label, 0 for differing nonzero labels, and 0 (the documented
default) for positions involving an unassigned point. -/
def all_pairwise (cl : List ℕ) : List (List ℕ) :=
  (List.range cl.length).map (fun i =>
    (List.range cl.length).map (fun j =>
      if cl.getD i 0 ≠ 0 ∧ cl.getD i 0 = cl.getD j 0 then 1 else 0))

/-! ### FFQS (farthest-first query search) -/

/-- State of the inner representative-scan loop of `FFQS`
(`while (not constraint) and (nbr_cnt <= np.max(nbr_label))`).
`lastRec` and `rep` are ghost instrumentation: they record whether the
most recent query fell inside the budget and which representative it
compared against; they are never read by the algorithm. -/
structure ScanSt where
  constraint : Bool
  nbrCnt : ℕ
  quer : ℕ
  rows : List (ℕ × ℕ × Bool)
  lastRec : Bool
  rep : ℕ
deriving Repr, DecidableEq

/-- State of the outer `FFQS` loop.  `founders` and `unrecorded` are
ghost instrumentation, never read by the algorithm: `founders` records
the points that opened a brand-new neighborhood (`else` branch) and
`unrecorded` the points whose matching "same" query fell outside the
budget and so was not written to `constraint_mat`. -/
structure FState where
  nbrLabel : List ℕ
  querCnt : ℕ
  rows : List (ℕ × ℕ × Bool)
  foundAll : Bool
  founders : List ℕ
  unrecorded : List ℕ
deriving Repr, DecidableEq

/-- The member list `ind[nbr_label == k]` of neighborhood `k`. -/
def hoodOf (nbrLabel : List ℕ) (N k : ℕ) : List ℕ :=
  (List.range N).filter (fun p => nbrLabel.getD p 0 = k)

/-- The representative `this_hood[0]` of neighborhood `k`
(`hoodOf` is nonempty for every `1 ≤ k ≤ np.max(nbr_label)` since
labels are contiguous, so the `headD` default is never used). -/
def repOf (nbrLabel : List ℕ) (N k : ℕ) : ℕ := (hoodOf nbrLabel N k).headD 0

/-- The body of the inner scan loop: compare `newPt` to the current
neighborhood's representative, record the row while the budget allows,
advance the counters. -/
def scanNext (labels : List ℤ) (nbrLabel : List ℕ) (N n newPt : ℕ)
    (st : ScanSt) : ScanSt :=
  let rep := repOf nbrLabel N st.nbrCnt
  let cons := decide (labels.getD newPt 0 = labels.getD rep 0)
  ⟨cons, st.nbrCnt + 1, st.quer + 1,
    if st.quer < n then st.rows.set st.quer (newPt, rep, cons) else st.rows,
    decide (st.quer < n), rep⟩

/-- Inner scan of `FFQS`: query `newPt` against the first member of each
neighborhood `1, 2, ...` in turn until a "same" answer or all
neighborhoods are exhausted.  A row is recorded only while
`quer_cnt < n_constraints`, but the query (and the increment) happens
regardless.  Fuel `maxLab + 1` dominates the iteration count since
`nbr_cnt` increases by one per pass. -/
def ffqsScan (labels : List ℤ) (nbrLabel : List ℕ) (N n newPt maxLab : ℕ) :
    ℕ → ScanSt → ScanSt
  | 0, st => st
  | fuel + 1, st =>
    if st.constraint = false ∧ st.nbrCnt ≤ maxLab then
      ffqsScan labels nbrLabel N n newPt maxLab fuel
        (scanNext labels nbrLabel N n newPt st)
    else st

/-- The full inner scan of one `FFQS` iteration, started on the fresh
scan state `(constraint=False, nbr_cnt=1)` for the selected point. -/
def scanOf (labels : List ℤ) (n newPt : ℕ) (s : FState) : ScanSt :=
  ffqsScan labels s.nbrLabel labels.length n newPt (maxL s.nbrLabel)
    (maxL s.nbrLabel + 1) ⟨false, 1, s.querCnt, s.rows, false, 0⟩

/-- The scan-and-assign part of one `FFQS` iteration, for the already
selected farthest point `newPt`: run the inner scan, then assign
`newPt` to the matched neighborhood (`nbr_cnt - 1`) or to a brand-new
one (`max + 1`), update the ghost fields accordingly, and refresh the
early-stop flag. -/
def ffqsAssign (labels : List ℤ) (n nc newPt : ℕ) (s : FState) : FState :=
  let maxLab := maxL s.nbrLabel
  let sc := scanOf labels n newPt s
  let s2 : FState :=
    if sc.constraint then
      { nbrLabel := s.nbrLabel.set newPt (sc.nbrCnt - 1), querCnt := sc.quer,
        rows := sc.rows, foundAll := s.foundAll, founders := s.founders,
        unrecorded := if sc.lastRec then s.unrecorded else newPt :: s.unrecorded }
    else
      { nbrLabel := s.nbrLabel.set newPt (maxLab + 1), querCnt := sc.quer,
        rows := sc.rows, foundAll := s.foundAll, founders := newPt :: s.founders,
        unrecorded := s.unrecorded }
  { s2 with foundAll := decide (distinctNonzero s2.nbrLabel = nc) }

/-- One iteration of the outer `FFQS` loop: pick the unassigned point
with the largest minimum distance to the skeleton, then scan and
assign it (`ffqsAssign`).  Reductions over empty candidate/skeleton
sets raise in numpy and are embedded as errors. -/
def ffqsStep (labels : List ℤ) (d : ℕ → ℕ → ℚ) (n nc : ℕ) (s : FState) :
    Except String FState :=
  let N := labels.length
  let nbrInd := (List.range N).filter (fun p => 0 < s.nbrLabel.getD p 0)
  let candInd := (List.range N).filter (fun p => s.nbrLabel.getD p 0 = 0)
  if candInd.isEmpty then .error "attempt to get argmax of an empty sequence"
  else if nbrInd.isEmpty then .error "zero-size array to reduction operation minimum"
  else
    let minDist := candInd.map (fun c => minD (nbrInd.map (fun b => d b c)))
    let newPt := candInd.getD (argmaxQ minDist) 0
    .ok (ffqsAssign labels n nc newPt s)

/-- The outer `FFQS` loop
(`while quer_cnt < n_constraints and (not found_all)`).  Fuel `n`
dominates the iteration count: every iteration issues at least one
query (the seed guarantees `np.max(nbr_label) ≥ 1`). -/
def ffqsLoop (labels : List ℤ) (d : ℕ → ℕ → ℚ) (n nc : ℕ) :
    ℕ → FState → Except String FState
  | 0, s => .ok s
  | fuel + 1, s =>
    if s.querCnt < n ∧ s.foundAll = false then
      ffqsStep labels d n nc s >>= ffqsLoop labels d n nc fuel
    else .ok s

/-- The initial `FFQS` state: all labels 0 except the random seed
point (labelled 1), a zeroed `(n_constraints, 3)` constraint matrix,
no queries spent. -/
def initF (labels : List ℤ) (n seedIx : ℕ) : FState :=
  ⟨(List.replicate labels.length 0).set (seedIx % labels.length) 1, 0,
    List.replicate n (0, 0, false), false, [], []⟩

/-- `FFQS` in terms of its full final state (including the ghost
fields).  `seedIx % N` models `np.random.randint(N)` (the injected
draw `seedIx`); `np.random.randint(0)` raises. -/
def FFQS_state (labels : List ℤ) (d : ℕ → ℕ → ℚ) (n seedIx : ℕ) :
    Except String FState :=
  if labels.length = 0 then .error "low >= high"
  else ffqsLoop labels d n (numClass labels) n (initF labels n seedIx)

/-- `FFQS(pdist_vec, labels, n_constraints)`: returns the
`(n_constraints, 3)` constraint matrix (stored as float rows
`[new_pt, this_hood[0], constraint]`, embedded as integer rows) and the
neighborhood-label vector. -/
def FFQS (labels : List ℤ) (d : ℕ → ℕ → ℚ) (n seedIx : ℕ) :
    Except String (List (List ℤ) × List ℕ) :=
  (FFQS_state labels d n seedIx).map (fun s =>
    (s.rows.map (fun r => [(r.1 : ℤ), (r.2.1 : ℤ), if r.2.2 then 1 else 0]),
      s.nbrLabel))

/-! ### MMFFQS (minimax farthest-first query search) -/

/-- State of the `MMFFQS` exploitation loop (`while query_cnt <
n_constraints`).  `clusList` (the value of `clus`, computed once before
the loop) is carried as a parameter, matching the source. -/
structure MState where
  clusLabel : List ℕ
  queryCnt : ℕ
  rows : List (ℕ × ℕ × Bool)
  skeleton : List ℕ
deriving Repr, DecidableEq

/-- For each discovered neighborhood value `c` in `cs`, the pair
(best affinity of `q` to the hood, the most-affine member); models the
`for k in range(num_clus)` block building `sim_vec` / `ind_vec`.
`np.argmax` over an empty member list raises. -/
def repsOf (N : ℕ) (aff : ℕ → ℕ → ℚ) (cl : List ℕ) (q : ℕ) :
    List ℕ → Except String (List (ℚ × ℕ))
  | [] => .ok []
  | c :: cs =>
    let indk := (List.range N).filter (fun p => cl.getD p 0 = c)
    if indk.isEmpty then .error "attempt to get argmax of an empty sequence"
    else
      let affs := indk.map (fun p => aff q p)
      let si := argmaxQ affs
      (repsOf N aff cl q cs).map (fun rest => (affs.getD si 0, indk.getD si 0) :: rest)

/-- The per-candidate query loop of `MMFFQS`
(`for k in range(num_clus)`), kept verbatim including the
`if k == num_clus` branch of the source.  Stops at the first "same"
answer or when `query_cnt` reaches the budget.  Fuel `numClus`
dominates the iteration count (`k` increases by one per pass). -/
def mmScan (labels : List ℤ) (n numClus maxClus q : ℕ) (indVec : List ℕ) :
    ℕ → ℕ → List ℕ × ℕ × List (ℕ × ℕ × Bool) → List ℕ × ℕ × List (ℕ × ℕ × Bool)
  | 0, _, st => st
  | fuel + 1, k, (cl, qc, rows) =>
    if k < numClus then
      let target := indVec.getD k 0
      let link := decide (labels.getD q 0 = labels.getD target 0)
      let rows2 := rows.set qc (q, target, link)
      let qc2 := qc + 1
      if link then (cl.set q (cl.getD target 0), qc2, rows2)
      else
        let cl2 := if k = numClus then cl.set q (maxClus + 1) else cl
        if qc2 = n then (cl2, qc2, rows2)
        else mmScan labels n numClus maxClus q indVec fuel (k + 1) (cl2, qc2, rows2)
    else (cl, qc, rows)

/-- One iteration of the `MMFFQS` loop: choose the candidate with
minimal maximum affinity to the skeleton (or a random point when every
point is in the skeleton; the draw for iteration `query_cnt` is
`rnd query_cnt`), rank the neighborhoods by best affinity, run the
query scan, and append the candidate to the skeleton. -/
def mmStep (labels : List ℤ) (aff : ℕ → ℕ → ℚ) (n : ℕ) (clusList : List ℕ)
    (rnd : ℕ → ℕ) (st : MState) : Except String MState :=
  let N := labels.length
  (if ((List.range N).filter (fun p => ¬ st.skeleton.contains p)).isEmpty then
      .ok (rnd st.queryCnt % N)
    else if st.skeleton.isEmpty then
      .error "zero-size array to reduction operation maximum"
    else
      let cand := (List.range N).filter (fun p => ¬ st.skeleton.contains p)
      let sims := cand.map (fun c => maxD (st.skeleton.map (fun sk => aff sk c)))
      .ok (cand.getD (argminQ sims) 0)) >>= fun q =>
  (repsOf N aff st.clusLabel q clusList).map (fun simInd =>
    let simVec := simInd.map Prod.fst
    let indVec0 := simInd.map Prod.snd
    let sortIdx := argsortDesc simVec
    let indVec := sortIdx.map (fun i => indVec0.getD i 0)
    let numClus := clusList.length
    let res := mmScan labels n numClus (maxL clusList) q indVec numClus 0
      (st.clusLabel, st.queryCnt, st.rows)
    ⟨res.1, res.2.1, res.2.2, st.skeleton ++ [q]⟩)

/-- The `MMFFQS` exploitation loop.  Fuel `n` dominates the iteration
count: each pass issues at least one query since FFQS leaves at least
one discovered neighborhood. -/
def mmLoop (labels : List ℤ) (aff : ℕ → ℕ → ℚ) (n : ℕ) (clusList : List ℕ)
    (rnd : ℕ → ℕ) : ℕ → MState → Except String MState
  | 0, st => .ok st
  | fuel + 1, st =>
    if st.queryCnt < n then
      mmStep labels aff n clusList rnd st >>= mmLoop labels aff n clusList rnd fuel
    else .ok st

/-- `MMFFQS` in terms of its full final state: run `FFQS`, size the
already-spent budget by the recorded rows whose first column is
nonzero (`constraint_mat[constraint_mat[:,0] != 0, 0:2]`), seed the
skeleton with the points of those rows (`np.unique` sorts), and
exploit the remaining budget.  (`num_class` is computed by the source
and never used.) -/
def MMFFQS_state (labels : List ℤ) (d : ℕ → ℕ → ℚ) (n seedIx : ℕ)
    (rnd : ℕ → ℕ) : Except String MState :=
  FFQS_state labels d n seedIx >>= fun fs =>
  let N := labels.length
  let explore := fs.rows.filter (fun r => r.1 ≠ 0)
  let skeleton := sortedUniqueBelow N (explore.foldr (fun r acc => r.1 :: r.2.1 :: acc) [])
  let clusList := (List.range (maxL fs.nbrLabel + 1)).filter
    (fun k => k ≠ 0 ∧ fs.nbrLabel.contains k)
  mmLoop labels (affQ d) n clusList rnd n ⟨fs.nbrLabel, explore.length, fs.rows, skeleton⟩

/-- `MMFFQS(pdist_vec, labels, n_constraints)`: returns
`constraint_mat[:, :2]` and the cluster-label vector. -/
def MMFFQS (labels : List ℤ) (d : ℕ → ℕ → ℚ) (n seedIx : ℕ) (rnd : ℕ → ℕ) :
    Except String (List (List ℤ) × List ℕ) :=
  (MMFFQS_state labels d n seedIx rnd).map (fun s =>
    (s.rows.map (fun r => [(r.1 : ℤ), (r.2.1 : ℤ)]), s.clusLabel))

/-! ### ACD (active class discovery) -/

/-- Bottom-up merge bookkeeping over the agglomerative-clustering
children array (`agg.children_` is produced by the external
`sklearn` collaborator and is an input here): starting from the
singleton groups, step `i` appends the union of the two merged groups
and records the pair.  Models the `for i in range(N-1)` loop of
`active_class_discovery`. -/
def buildMerges (N : ℕ) (children : List (ℕ × ℕ)) :
    List (List ℕ × List ℕ) :=
  (children.foldl
    (fun acc c =>
      let g1 := acc.1.getD c.1 []
      let g2 := acc.1.getD c.2 []
      (acc.1 ++ [g1 ++ g2], acc.2 ++ [(g1, g2)]))
    ((List.range N).map (fun x => [x]), [])).2

/-- Smaller-side sizes of the merges (`merge_size`). -/
def mergeSizes (N : ℕ) (children : List (ℕ × ℕ)) : List ℕ :=
  (buildMerges N children).map (fun m => min m.1.length m.2.length)

/-- The merge indices actually queried: sorted by descending
smaller-side size, optionally filtered by `min_samples`, truncated to
the budget. -/
def acdSelect (N : ℕ) (children : List (ℕ × ℕ)) (nc : ℕ)
    (minSamples : Option ℕ) : List ℕ :=
  let sizes := mergeSizes N children
  let sorted := argsortDesc sizes
  let filtered := match minSamples with
    | none => sorted
    | some m => sorted.filter (fun i => m ≤ sizes.getD i 0)
  filtered.take nc

/-- `active_class_discovery(data, n_constraints, min_samples)`: one
random representative from each side of the selected merges
(`np.random.choice`, modelled as the injected draw modulo the group
size), padded with uniformly random pairs
(`np.random.randint(0, N, (n - s, 2))`, the injected draws `rP`). -/
def active_class_discovery (N : ℕ) (children : List (ℕ × ℕ)) (nc : ℕ)
    (minSamples : Option ℕ) (rC rP : ℕ → ℕ) : List (List ℤ) :=
  let hist := buildMerges N children
  let sel := acdSelect N children nc minSamples
  (List.range nc).map (fun i =>
    if i < sel.length then
      let m := hist.getD (sel.getD i 0) ([], [])
      [(m.1.getD (rC (2 * i) % m.1.length) 0 : ℤ),
       (m.2.getD (rC (2 * i + 1) % m.2.length) 0 : ℤ)]
    else
      [(rP (2 * i) % N : ℤ), (rP (2 * i + 1) % N : ℤ)])

/-! ### Constraint assembler (`get_constraints`) -/

/-- A Python number: the source runs under Python 3, where `/` on
integers is true division producing a float.  The distinction matters
only for the defaulting of `n_constraints`. -/
inductive PyNum where
  | int : ℤ → PyNum
  | float : ℚ → PyNum
deriving Repr, DecidableEq

/-- Using a Python number as a numpy shape/size: numpy accepts
(nonnegative) integers and rejects floats with a `TypeError`,
negative sizes with a `ValueError`. -/
def toShape : PyNum → Except String ℕ
  | .int z => if z < 0 then .error "negative dimensions are not allowed" else .ok z.toNat
  | .float _ => .error "float object cannot be interpreted as an integer"

/-- Events recorded by the embedding of `get_constraints`, to express
evaluation order: the pairwise-distance computation (line
`pdist_vec = pdist(data)`) and the entry into a strategy branch. -/
inductive Ev where
  | pdist
  | strat (m : String)
deriving Repr, DecidableEq

/-- The random draws consumed by one call of `get_constraints`,
injected per the spec's randomness requirement. -/
structure Oracle where
  seedIx : ℕ
  mmRnd : ℕ → ℕ
  pairs : ℕ → ℕ
  acdChoice : ℕ → ℕ
  acdPad : ℕ → ℕ
  unif : ℕ → ℚ

/-- The oracle answer for a query row: `1` when the true labels of the
endpoints in columns 0 and 1 agree, else `0`
(`(labels[query_mat[:,0]] == labels[query_mat[:,1]]) + 0`). -/
def trueLink (labels : List ℤ) (row : List ℤ) : ℤ :=
  if labels.getD (row.getD 0 0).toNat 0 = labels.getD (row.getD 1 0).toNat 0 then 1 else 0

/-- Lines 40-48 of the source: compute the oracle links, flip the rows
selected by the noise draw via the literal `2 - np.power(2, link)`, and
append the link column.  `np.random.choice(2, n, p=[1-err_rate,
err_rate])` selects row `i` exactly when the uniform draw
`unif i ∈ [0,1)` is below `err_rate`. -/
def assemble (labels : List ℤ) (errRate : ℚ) (unif : ℕ → ℚ)
    (qm : List (List ℤ)) : List (List ℤ) :=
  (List.range qm.length).map (fun i =>
    let row := qm.getD i []
    let link := trueLink labels row
    let link2 := if unif i < errRate then 2 - 2 ^ link.toNat else link
    row ++ [link2])

/-- The strategy dispatch of `get_constraints` (the `if/elif` chain in
source order, with `assert False` for an unknown method).  The default
budget is `N/2`, Python 3 true division, hence a float.  Each branch
first sizes an `n_constraints`-shaped array, which is where numpy
rejects a non-integer budget. -/
def dispatch (labels : List ℤ) (d : ℕ → ℕ → ℚ) (children : List (ℕ × ℕ))
    (method : String) (nOpt : Option PyNum) (minSamples : Option ℕ)
    (o : Oracle) : List Ev × Except String (List (List ℤ) × Option (List (List ℕ))) :=
  let N := labels.length
  let nNum := nOpt.getD (PyNum.float ((N : ℚ) / 2))
  if method = "acd" then
    ([Ev.strat "acd"], (toShape nNum).map (fun nc =>
      (active_class_discovery N children nc minSamples o.acdChoice o.acdPad, none)))
  else if method = "mmffqs" then
    ([Ev.strat "mmffqs"], toShape nNum >>= fun nc =>
      (MMFFQS labels d nc o.seedIx o.mmRnd).map (fun r =>
        (r.1, some (all_pairwise r.2))))
  else if method = "ffqs" then
    ([Ev.strat "ffqs"], toShape nNum >>= fun nc =>
      (FFQS labels d nc o.seedIx).map (fun r =>
        (r.1, some (all_pairwise r.2))))
  else if method = "rand" then
    ([Ev.strat "rand"], (toShape nNum).map (fun nc =>
      ((List.range nc).map (fun i =>
        [(o.pairs (2 * i) % N : ℤ), (o.pairs (2 * i + 1) % N : ℤ)]), none)))
  else ([], .error "no such method")

/-- `get_constraints(data, labels, method, n_constraints, err_rate)`:
computes the pairwise distance representation (recorded as the event
`Ev.pdist`; the representation itself is the input `d`), dispatches to
the strategy, then appends the noise-corrupted oracle link column.
Returns the event trace together with the result. -/
def get_constraints (labels : List ℤ) (d : ℕ → ℕ → ℚ) (children : List (ℕ × ℕ))
    (method : String) (nOpt : Option PyNum) (errRate : ℚ) (minSamples : Option ℕ)
    (o : Oracle) : List Ev × Except String (List (List ℤ) × Option (List (List ℕ))) :=
  let r := dispatch labels d children method nOpt minSamples o
  (Ev.pdist :: r.1, r.2.map (fun p => (assemble labels errRate o.unif p.1, p.2)))

/-! ### Specification predicates -/

/-- Class purity of a neighborhood-label vector: any two points
carrying the same nonzero neighborhood label have equal true labels. -/
def classPure (labels : List ℤ) (cl : List ℕ) : Prop :=
  ∀ p q : ℕ, cl.getD p 0 = cl.getD q 0 → cl.getD p 0 ≠ 0 →
    labels.getD p 0 = labels.getD q 0

/-- The inductive invariant of the outer `FFQS` loop: label/row vector
shapes, the seed keeps label 1, the label values are bounded by the
spent and total budgets, labels are contiguous (every value
`1..max` is inhabited), neighborhoods are class-pure, and every
assigned point is the seed, a neighborhood founder, a point whose
matching query overran the budget, or justified by a recorded
"same"-answer row to another member of its neighborhood. -/
def FInv (labels : List ℤ) (n seed : ℕ) (s : FState) : Prop :=
  s.nbrLabel.length = labels.length ∧
  s.rows.length = n ∧
  s.nbrLabel.getD seed 0 = 1 ∧
  maxL s.nbrLabel ≤ s.querCnt + 1 ∧
  maxL s.nbrLabel ≤ n + 1 ∧
  (∀ k, 1 ≤ k → k ≤ maxL s.nbrLabel → hoodOf s.nbrLabel labels.length k ≠ []) ∧
  classPure labels s.nbrLabel ∧
  ∀ p, s.nbrLabel.getD p 0 ≠ 0 → p = seed ∨ p ∈ s.founders ∨ p ∈ s.unrecorded ∨
    ∃ j i, i < s.querCnt ∧ i < n ∧ s.rows.getD i (0, 0, false) = (p, j, true) ∧
      s.nbrLabel.getD j 0 = s.nbrLabel.getD p 0 ∧ j ≠ p

/-! ### Concrete fixtures used by closed theorems and witnesses -/

/-- The discrete metric on point indices: a valid pairwise distance
representation (symmetric, zero diagonal, triangle inequality). -/
def dUnit : ℕ → ℕ → ℚ := fun i j => if i = j then 0 else 1

/-- An oracle whose every draw is 0 (in particular every uniform draw
is the value 0 of the interval `[0,1)`). -/
def oracle0 : Oracle := ⟨0, fun _ => 0, fun _ => 0, fun _ => 0, fun _ => 0, fun _ => 0⟩

/-! ### Basic lemmas about the list helpers -/

theorem getD_set_ne {α : Type} (l : List α) (j : ℕ) (v : α) (i : ℕ) (dflt : α)
    (h : i ≠ j) : (l.set j v).getD i dflt = l.getD i dflt := by
  induction l generalizing i j with
  | nil => simp
  | cons a as ih =>
    cases j with
    | zero => cases i with
      | zero => exact absurd rfl h
      | succ i => simp [List.getD]
    | succ j => cases i with
      | zero => simp [List.getD]
      | succ i => simpa [List.getD] using ih j i (fun hh => h (by omega))

theorem getD_set_self {α : Type} (l : List α) (j : ℕ) (v : α) (dflt : α)
    (h : j < l.length) : (l.set j v).getD j dflt = v := by
  induction l generalizing j with
  | nil => simp at h
  | cons a as ih =>
    cases j with
    | zero => simp [List.getD]
    | succ j => simpa [List.getD] using ih j (by simpa using h)

theorem getD_replicate {α : Type} (n i : ℕ) (a : α) :
    (List.replicate n a).getD i a = a := by
  induction n generalizing i with
  | zero => simp
  | succ n ih => cases i with
    | zero => simp [List.getD]
    | succ i => simp [List.replicate, List.getD]

/-- The affinity model evaluates to the spec's `1 / (1 + d)` for
nonnegative distances. -/
theorem affT_eq_one_div (r : ℚ) (h : 0 ≤ r) : affT r = 1 / (1 + r) := by
  have hnum : (0:ℤ) ≤ r.num := Rat.num_nonneg.mpr h
  have hnn : (0:ℤ) ≤ r.num + (r.den : ℤ) := by positivity
  have hcast : (((r.num + (r.den : ℤ)).toNat : ℕ) : ℚ) = (r.num : ℚ) + (r.den : ℚ) := by
    exact_mod_cast congrArg (fun z : ℤ => (z : ℚ)) (Int.toNat_of_nonneg hnn)
  have hden : ((r.den : ℚ)) ≠ 0 := by exact_mod_cast r.den_pos.ne'
  have hr : (r.num : ℚ) = r * r.den := (div_eq_iff hden).mp (Rat.num_div_den r)
  have h1 : (0:ℚ) < 1 + r := by positivity
  rw [affT, Rat.mkRat_eq_div, hcast, div_eq_div_iff (by positivity) h1.ne']
  push_cast
  rw [hr]; ring

/-! ### Claim C1 -/

/-- C1: refuted on the code (code bug).  The claim states that for
every strategy the returned constraint matrix has exactly
`n_constraints` rows and 3 columns.  For `method = "ffqs"` the
dispatched query matrix is FFQS's `(n_constraints, 3)` constraint
matrix itself (unlike `MMFFQS`, `FFQS`'s result is not sliced to its
first two columns), so appending the link column yields a
`(n_constraints, 4)` matrix: on two identically labeled points with
budget 2 the call returns rows of length 4. -/
theorem c1_ffqs_four_columns :
    get_constraints [(0:ℤ), 0] dUnit [] "ffqs" (some (.int 2)) 0 none oracle0 =
      ([Ev.pdist, Ev.strat "ffqs"],
        .ok ([[1, 0, 1, 1], [0, 0, 0, 1]], some [[1, 1], [1, 1]])) ∧
    ([[1, 0, 1, 1], [0, 0, 0, 1]] : List (List ℤ)).map List.length = [4, 4] := by
  exact ⟨rfl, rfl⟩

/-! ### Claim C5 -/

/-- C5 (amended): a call with an unrecognized strategy name fails with
the invalid-argument signal (`assert False, 'no such method'`), but
only after the pairwise distance representation has been computed
(`pdist_vec = pdist(data)` precedes the dispatch); no strategy is run
and no constraints are produced.  The trace is exactly `[Ev.pdist]`. -/
theorem c5_unknown_method_fails_after_pdist (labels : List ℤ) (d : ℕ → ℕ → ℚ)
    (children : List (ℕ × ℕ)) (nOpt : Option PyNum) (e : ℚ) (ms : Option ℕ)
    (o : Oracle) (method : String)
    (h1 : method ≠ "acd") (h2 : method ≠ "mmffqs") (h3 : method ≠ "ffqs")
    (h4 : method ≠ "rand") :
    get_constraints labels d children method nOpt e ms o =
      ([Ev.pdist], .error "no such method") := by
  simp [get_constraints, dispatch, h1, h2, h3, h4, Except.map]

/-- Witness for C5 at the concrete method name `"kmeans"`. -/
theorem c5_unknown_method_fails_after_pdist_witness :
    get_constraints [(0:ℤ), 1] dUnit [] "kmeans" (some (.int 1)) 0 none oracle0 =
      ([Ev.pdist], .error "no such method") :=
  c5_unknown_method_fails_after_pdist [(0:ℤ), 1] dUnit [] (some (.int 1)) 0 none
    oracle0 "kmeans" (by decide) (by decide) (by decide) (by decide)

/-- C5 counterexample to the claim as stated: the claim says the call
fails before the pairwise distance representation is computed, but on
the unrecognized method `"agglom"` the trace of the failing call
contains the `pdist` event: the distance computation happened before
the failure. -/
theorem c5_pdist_computed_before_failure :
    Ev.pdist ∈ (get_constraints [(0:ℤ), 1] dUnit [] "agglom" (some (.int 1)) 0 none oracle0).1 ∧
    (get_constraints [(0:ℤ), 1] dUnit [] "agglom" (some (.int 1)) 0 none oracle0).2 =
      .error "no such method" := by
  exact ⟨List.mem_singleton.mpr rfl, rfl⟩

/-! ### Claim C6 -/

/-- C6: refuted on the code (code bug).  The claim (from the spec's
error-handling design) states that a dataset with fewer than 2 points
or a single-class label vector is rejected with an invalid-argument
failure.  The source performs no such validation: a 1-point dataset
and a single-class 3-point dataset both flow through `"rand"` and
return a constraint matrix. -/
theorem c6_degenerate_inputs_not_rejected :
    get_constraints [(5:ℤ)] dUnit [] "rand" (some (.int 1)) 0 none oracle0 =
      ([Ev.pdist, Ev.strat "rand"], .ok ([[0, 0, 1]], none)) ∧
    get_constraints [(4:ℤ), 4, 4] dUnit [] "rand" (some (.int 2)) 0 none oracle0 =
      ([Ev.pdist, Ev.strat "rand"], .ok ([[0, 0, 1], [0, 0, 1]], none)) := by
  exact ⟨rfl, rfl⟩

/-! ### Claim C8 -/

/-- C8: refuted on the code (code bug).  The claim states that a call
omitting `n_constraints` uses the integer `N/2` as budget and returns
that many rows.  Under Python 3, `N/2` is true division: the default
is the float `4/2 = 2.0`, and numpy rejects a float array size with a
`TypeError`, so the call raises instead of returning 2 rows. -/
theorem c8_default_budget_float_type_error :
    get_constraints [(0:ℤ), 0, 1, 1] dUnit [] "rand" none 0 none oracle0 =
      ([Ev.pdist, Ev.strat "rand"],
        .error "float object cannot be interpreted as an integer") := rfl

/-! ### Claim C2 -/

theorem trueLink_cases (labels : List ℤ) (row : List ℤ) :
    trueLink labels row = 0 ∨ trueLink labels row = 1 := by
  unfold trueLink; split
  · exact Or.inr rfl
  · exact Or.inl rfl

theorem flip_eq_one_sub (l : ℤ) (h : l = 0 ∨ l = 1) :
    2 - 2 ^ l.toNat = 1 - l := by
  rcases h with rfl | rfl <;> decide

/-- With `err_rate = 0` no row is selected for flipping (every uniform
draw is nonnegative), so `assemble` appends the true link. -/
theorem assemble_zero (labels : List ℤ) (u : ℕ → ℚ) (hu : ∀ i, 0 ≤ u i)
    (qm : List (List ℤ)) :
    assemble labels 0 u qm = (List.range qm.length).map
      (fun i => qm.getD i [] ++ [trueLink labels (qm.getD i [])]) := by
  unfold assemble
  refine List.map_congr_left (fun i _ => ?_)
  simp [not_lt.mpr (hu i)]

/-- With `err_rate = 1` every row is selected for flipping (every
uniform draw lies in `[0,1)`), so `assemble` appends the literal
`2 - 2 ** link`. -/
theorem assemble_one (labels : List ℤ) (u : ℕ → ℚ) (hu : ∀ i, u i < 1)
    (qm : List (List ℤ)) :
    assemble labels 1 u qm = (List.range qm.length).map
      (fun i => qm.getD i [] ++ [1 - trueLink labels (qm.getD i [])]) := by
  unfold assemble
  refine List.map_congr_left (fun i _ => ?_)
  simp only [if_pos (hu i)]
  rw [flip_eq_one_sub _ (trueLink_cases labels (qm.getD i []))]

/-- Every successful result of `get_constraints` is `assemble` applied
to the dispatched query matrix. -/
theorem get_constraints_ok_assemble (labels : List ℤ) (d : ℕ → ℕ → ℚ)
    (children : List (ℕ × ℕ)) (method : String) (nOpt : Option PyNum) (e : ℚ)
    (ms : Option ℕ) (o : Oracle) (tr : List Ev) (m : List (List ℤ))
    (b : Option (List (List ℕ)))
    (h : get_constraints labels d children method nOpt e ms o = (tr, .ok (m, b))) :
    ∃ qm, m = assemble labels e o.unif qm := by
  unfold get_constraints at h
  dsimp only at h
  rcases hd : (dispatch labels d children method nOpt ms o).2 with s | p
  · rw [hd] at h
    simp [Except.map] at h
  · rw [hd] at h
    simp only [Except.map] at h
    have h2 := congrArg Prod.snd h
    simp only at h2
    injection h2 with h3
    exact ⟨p.1, (congrArg Prod.fst h3).symm⟩

/-- C2 (confirmed): the flip `2 - 2 ** link` on a link in `{0, 1}` is
the complement `1 - link`; with `err_rate = 0` every returned row of
`get_constraints` is its query pair extended with the true oracle link
of that pair, and with `err_rate = 1` with the exact complement. -/
theorem c2_noise_flip_complement (labels : List ℤ) (d : ℕ → ℕ → ℚ)
    (children : List (ℕ × ℕ)) (method : String) (nOpt : Option PyNum)
    (ms : Option ℕ) (o : Oracle) (tr0 tr1 : List Ev) (m0 m1 : List (List ℤ))
    (b0 b1 : Option (List (List ℕ)))
    (hu0 : ∀ i, 0 ≤ o.unif i) (hu1 : ∀ i, o.unif i < 1)
    (h0 : get_constraints labels d children method nOpt 0 ms o = (tr0, .ok (m0, b0)))
    (h1 : get_constraints labels d children method nOpt 1 ms o = (tr1, .ok (m1, b1))) :
    (∀ row ∈ m0, ∃ r, row = r ++ [trueLink labels r]) ∧
    (∀ row ∈ m1, ∃ r, row = r ++ [1 - trueLink labels r]) ∧
    (∀ l : ℤ, l = 0 ∨ l = 1 → 2 - 2 ^ l.toNat = 1 - l) := by
  obtain ⟨qm0, hm0⟩ := get_constraints_ok_assemble _ _ _ _ _ _ _ _ _ _ _ h0
  obtain ⟨qm1, hm1⟩ := get_constraints_ok_assemble _ _ _ _ _ _ _ _ _ _ _ h1
  refine ⟨?_, ?_, flip_eq_one_sub⟩
  · intro row hrow
    rw [hm0, assemble_zero labels o.unif hu0] at hrow
    obtain ⟨i, _, rfl⟩ := List.mem_map.mp hrow
    exact ⟨qm0.getD i [], rfl⟩
  · intro row hrow
    rw [hm1, assemble_one labels o.unif hu1] at hrow
    obtain ⟨i, _, rfl⟩ := List.mem_map.mp hrow
    exact ⟨qm1.getD i [], rfl⟩

/-- Witness for C2: a concrete `"rand"` call on two points of different
classes, budget 2, with the all-zero uniform draw.  With `err_rate = 0`
the returned links are the true relation (both pairs are `(0,0)`, link
1), with `err_rate = 1` the complement (link 0). -/
theorem c2_noise_flip_complement_witness :
    (∀ row ∈ ([[0, 0, 1], [0, 0, 1]] : List (List ℤ)),
      ∃ r, row = r ++ [trueLink [(0:ℤ), 1] r]) ∧
    (∀ row ∈ ([[0, 0, 0], [0, 0, 0]] : List (List ℤ)),
      ∃ r, row = r ++ [1 - trueLink [(0:ℤ), 1] r]) := by
  have h := c2_noise_flip_complement [(0:ℤ), 1] dUnit [] "rand" (some (.int 2))
    none oracle0 [Ev.pdist, Ev.strat "rand"] [Ev.pdist, Ev.strat "rand"]
    [[0, 0, 1], [0, 0, 1]] [[0, 0, 0], [0, 0, 0]] none none
    (fun _ => le_refl 0) (fun _ => zero_lt_one) rfl rfl
  exact ⟨h.1, h.2.1⟩

/-! ### Claim C3 -/

theorem mmScan_all_diff_aux (labels : List ℤ) (n maxClus q : ℕ) (indVec : List ℕ)
    (hdiff : ∀ t ∈ indVec, labels.getD q 0 ≠ labels.getD t 0) :
    ∀ fuel k cl qc rows, k + fuel = indVec.length → qc + fuel < n →
      (mmScan labels n indVec.length maxClus q indVec fuel k (cl, qc, rows)).1 = cl ∧
      (mmScan labels n indVec.length maxClus q indVec fuel k (cl, qc, rows)).2.1 = qc + fuel := by
  intro fuel
  induction fuel with
  | zero => intro k cl qc rows _ _; exact ⟨rfl, rfl⟩
  | succ fuel ih =>
    intro k cl qc rows hk hqc
    have hklt : k < indVec.length := by omega
    have htmem : indVec.getD k 0 ∈ indVec := by
      rw [List.getD_eq_getElem _ _ hklt]; exact List.getElem_mem hklt
    have hlink : decide (labels.getD q 0 = labels.getD (indVec.getD k 0) 0) = false :=
      decide_eq_false (hdiff _ htmem)
    have hne : k ≠ indVec.length := by omega
    have hqn : ¬ (qc + 1 = n) := by omega
    simp only [mmScan, if_pos hklt, hlink, Bool.false_eq_true, if_false, if_neg hne,
      if_neg hqn]
    have := ih (k + 1) cl (qc + 1) (rows.set qc (q, indVec.getD k 0, false)) (by omega) (by omega)
    exact ⟨this.1, by rw [this.2]; omega⟩

/-- C3: refuted on the code (code bug).  The claim (and the spec's
MMFFQS step 3) says that a candidate answering "different" against all
discovered neighborhoods with budget remaining is assigned a brand-new
neighborhood index `max + 1`.  In the source the assignment is guarded
by `if k == num_clus` inside `for k in range(num_clus)`, where `k`
never reaches `num_clus`: the branch is dead.  The theorem shows that
when every ranked representative answers "different" and the budget is
not exhausted by the scan, the scan walks all `num_clus` neighborhoods
and returns the cluster-label vector unchanged — the candidate keeps
label 0 instead of receiving `max + 1`. -/
theorem c3_mm_dead_branch_no_new_neighborhood (labels : List ℤ)
    (n maxClus q qc : ℕ) (indVec : List ℕ) (cl : List ℕ)
    (rows : List (ℕ × ℕ × Bool))
    (hdiff : ∀ t ∈ indVec, labels.getD q 0 ≠ labels.getD t 0)
    (hb : qc + indVec.length < n) :
    (mmScan labels n indVec.length maxClus q indVec indVec.length 0 (cl, qc, rows)).1 = cl ∧
    (mmScan labels n indVec.length maxClus q indVec indVec.length 0 (cl, qc, rows)).2.1 =
      qc + indVec.length :=
  mmScan_all_diff_aux labels n maxClus q indVec hdiff indVec.length 0 cl qc rows
    (by omega) hb

/-- Witness for C3: candidate point 2 (class 5) scans the two
neighborhoods `{0}` and `{1}` (classes 0 and 0) with budget 10; both
answers are "different", 2 queries are spent, and the label vector is
returned unchanged: point 2 keeps label 0. -/
theorem c3_mm_dead_branch_no_new_neighborhood_witness :
    (mmScan [(0:ℤ), 0, 5] 10 2 2 2 [0, 1] 2 0
      ([1, 2, 0], 0, List.replicate 10 (0, 0, false))).1 = [1, 2, 0] ∧
    (mmScan [(0:ℤ), 0, 5] 10 2 2 2 [0, 1] 2 0
      ([1, 2, 0], 0, List.replicate 10 (0, 0, false))).2.1 = 2 := by
  have h := c3_mm_dead_branch_no_new_neighborhood [(0:ℤ), 0, 5] 10 2 2 0 [0, 1]
    [1, 2, 0] (List.replicate 10 (0, 0, false)) (by decide) (by decide)
  simpa using h

/-! ### Claim C9 -/

theorem mem_insDesc {α : Type} [LinearOrder α] (key : ℕ → α) (i : ℕ)
    (l : List ℕ) (x : ℕ) : x ∈ insDesc key i l ↔ x = i ∨ x ∈ l := by
  induction l with
  | nil => simp [insDesc]
  | cons j js ih =>
    by_cases h : key j < key i
    · simp [insDesc, h]
    · simp only [insDesc, if_neg h, List.mem_cons, ih]
      tauto

theorem insDesc_sorted {α : Type} [LinearOrder α] (key : ℕ → α) (i : ℕ)
    (l : List ℕ) (hl : l.Sorted (fun a b => key b ≤ key a)) :
    (insDesc key i l).Sorted (fun a b => key b ≤ key a) := by
  induction l with
  | nil => simp [insDesc]
  | cons j js ih =>
    rw [List.sorted_cons] at hl
    by_cases h : key j < key i
    · simp only [insDesc, if_pos h]
      rw [List.sorted_cons]
      refine ⟨?_, ?_⟩
      · intro b hb
        rcases List.mem_cons.mp hb with rfl | hb
        · exact le_of_lt h
        · exact le_trans (hl.1 b hb) (le_of_lt h)
      · rw [List.sorted_cons]; exact hl
    · simp only [insDesc, if_neg h]
      rw [List.sorted_cons]
      refine ⟨?_, ih hl.2⟩
      intro b hb
      rcases (mem_insDesc key i js b).mp hb with rfl | hb
      · exact not_lt.mp h
      · exact hl.1 b hb

theorem sortDesc_sorted {α : Type} [LinearOrder α] (key : ℕ → α) (l : List ℕ) :
    (sortDesc key l).Sorted (fun a b => key b ≤ key a) := by
  induction l with
  | nil => simp [sortDesc]
  | cons j js ih => exact insDesc_sorted key j _ ih

theorem mem_sortDesc {α : Type} [LinearOrder α] (key : ℕ → α) (l : List ℕ)
    (x : ℕ) : x ∈ sortDesc key l ↔ x ∈ l := by
  induction l with
  | nil => simp [sortDesc]
  | cons j js ih => simp [sortDesc, mem_insDesc, ih]

theorem argsortDesc_sorted {α : Type} [LinearOrder α] [Zero α] (v : List α) :
    (argsortDesc v).Sorted (fun a b => v.getD b 0 ≤ v.getD a 0) :=
  sortDesc_sorted _ _

/-- C9 (confirmed): ACD consumes merges in non-increasing order of
smaller-side size (the sizes of the selected merges, read in order,
are sorted descending); the returned query matrix always has
`n_constraints` rows of length 2; and when `min_samples` filters out
every merge the whole output is the uniformly random fallback pairs. -/
theorem c9_acd_order_fallback_shape (N nc : ℕ) (children : List (ℕ × ℕ))
    (ms : Option ℕ) (rC rP : ℕ → ℕ) :
    ((acdSelect N children nc ms).map
      (fun i => (mergeSizes N children).getD i 0)).Sorted (· ≥ ·) ∧
    (active_class_discovery N children nc ms rC rP).length = nc ∧
    (∀ row ∈ active_class_discovery N children nc ms rC rP, row.length = 2) ∧
    (∀ m, ms = some m → (∀ z ∈ mergeSizes N children, z < m) →
      active_class_discovery N children nc ms rC rP =
        (List.range nc).map (fun i =>
          [(rP (2 * i) % N : ℤ), (rP (2 * i + 1) % N : ℤ)])) := by
  refine ⟨?_, ?_, ?_, ?_⟩
  · have h1 := argsortDesc_sorted (mergeSizes N children)
    have h2 : (acdSelect N children nc ms).Sorted
        (fun a b => (mergeSizes N children).getD b 0 ≤ (mergeSizes N children).getD a 0) := by
      unfold acdSelect
      cases ms with
      | none => exact h1.sublist (List.take_sublist _ _)
      | some m =>
        exact (List.Pairwise.sublist (List.take_sublist _ _) (h1.filter _))
    rw [List.Sorted, List.pairwise_map]
    exact h2
  · simp [active_class_discovery]
  · intro row hrow
    unfold active_class_discovery at hrow
    obtain ⟨i, _, rfl⟩ := List.mem_map.mp hrow
    by_cases h : i < (acdSelect N children nc ms).length <;> simp [h]
  · intro m hms hall
    have hsel : acdSelect N children nc ms = [] := by
      unfold acdSelect
      rw [hms]
      dsimp only
      have : ((argsortDesc (mergeSizes N children)).filter
          (fun i => decide (m ≤ (mergeSizes N children).getD i 0))) = [] := by
        rw [List.filter_eq_nil_iff]
        intro i hi
        have hrange : i ∈ List.range (mergeSizes N children).length := by
          rw [← mem_sortDesc (fun j => (mergeSizes N children).getD j 0)]
          exact hi
        have hlt : i < (mergeSizes N children).length := List.mem_range.mp hrange
        have hmem : (mergeSizes N children).getD i 0 ∈ mergeSizes N children := by
          rw [List.getD_eq_getElem _ _ hlt]; exact List.getElem_mem hlt
        simpa using not_le.mpr (hall _ hmem)
      rw [this, List.take_nil]
    unfold active_class_discovery
    refine List.map_congr_left (fun i _ => ?_)
    rw [hsel]
    simp

/-- Witness for C9 at a concrete merge tree: `N = 4`,
`children = [(0,1),(2,3),(4,5)]` gives smaller-side sizes `[1,1,2]`;
with `min_samples = 5` every merge is filtered out and the output is
exactly the random fallback pairs drawn from `rP k = k + 1`. -/
theorem c9_acd_order_fallback_shape_witness :
    active_class_discovery 4 [(0, 1), (2, 3), (4, 5)] 2 (some 5)
      (fun _ => 0) (fun k => k + 1) = [[1, 2], [3, 0]] := by
  have h := (c9_acd_order_fallback_shape 4 2 [(0, 1), (2, 3), (4, 5)] (some 5)
    (fun _ => 0) (fun k => k + 1)).2.2.2 5 rfl (by decide)
  rw [h]
  decide

/-! ### FFQS scan and loop lemmas (shared) -/

theorem ffqsScan_quer_mono (labels : List ℤ) (nbrLabel : List ℕ)
    (N n newPt maxLab : ℕ) :
    ∀ fuel st, st.quer ≤ (ffqsScan labels nbrLabel N n newPt maxLab fuel st).quer := by
  intro fuel
  induction fuel with
  | zero => intro st; exact le_refl _
  | succ fuel ih =>
    intro st
    rw [ffqsScan]
    split
    · exact le_trans (Nat.le_succ st.quer) (ih (scanNext labels nbrLabel N n newPt st))
    · exact le_refl _

theorem ffqsScan_rows_hi (labels : List ℤ) (nbrLabel : List ℕ)
    (N n newPt maxLab : ℕ) :
    ∀ fuel st i dflt, (ffqsScan labels nbrLabel N n newPt maxLab fuel st).quer ≤ i →
      (ffqsScan labels nbrLabel N n newPt maxLab fuel st).rows.getD i dflt =
        st.rows.getD i dflt := by
  intro fuel
  induction fuel with
  | zero => intro st i dflt _; rfl
  | succ fuel ih =>
    intro st i dflt hi
    by_cases hg : (st.constraint = false ∧ st.nbrCnt ≤ maxLab)
    · rw [ffqsScan, if_pos hg] at hi ⊢
      have h2 : st.quer + 1 ≤ i :=
        le_trans (ffqsScan_quer_mono labels nbrLabel N n newPt maxLab fuel
          (scanNext labels nbrLabel N n newPt st)) hi
      rw [ih _ i dflt hi]
      show (scanNext labels nbrLabel N n newPt st).rows.getD i dflt = st.rows.getD i dflt
      unfold scanNext
      dsimp only
      split
      · exact getD_set_ne _ _ _ _ _ (by omega)
      · rfl
    · rw [ffqsScan, if_neg hg] at hi ⊢

/-! ### FFQS step inversion and claim C7 -/

theorem argmaxAux_lt : ∀ (xs : List ℚ) (bv : ℚ) (best cur : ℕ), best < cur →
    argmaxAux xs bv best cur < cur + xs.length := by
  intro xs
  induction xs with
  | nil => intro bv best cur h; simpa [argmaxAux] using h
  | cons x xs ih =>
    intro bv best cur h
    rw [argmaxAux]
    split
    · have h2 := ih x cur (cur + 1) (by omega)
      simp only [List.length_cons]
      omega
    · have h2 := ih bv best (cur + 1) (by omega)
      simp only [List.length_cons]
      omega

theorem argmaxQ_lt (l : List ℚ) (h : l ≠ []) : argmaxQ l < l.length := by
  cases l with
  | nil => exact absurd rfl h
  | cons x xs =>
    have h2 := argmaxAux_lt xs x 0 1 (by omega)
    rw [argmaxQ]
    simp only [List.length_cons]
    omega

theorem ffqsAssign_querCnt (labels : List ℤ) (n nc newPt : ℕ) (s : FState) :
    (ffqsAssign labels n nc newPt s).querCnt = (scanOf labels n newPt s).quer := by
  unfold ffqsAssign
  dsimp only
  split <;> rfl

theorem ffqsAssign_rows (labels : List ℤ) (n nc newPt : ℕ) (s : FState) :
    (ffqsAssign labels n nc newPt s).rows = (scanOf labels n newPt s).rows := by
  unfold ffqsAssign
  dsimp only
  split <;> rfl

/-- The element of a nonempty list selected by `np.argmax` of a mapped
value list is a member of the list. -/
theorem getD_argmax_map_mem (l : List ℕ) (g : ℕ → ℚ) (hne : l ≠ []) :
    l.getD (argmaxQ (l.map g)) 0 ∈ l := by
  have hlt : argmaxQ (l.map g) < l.length := by
    rw [← List.length_map l g]
    exact argmaxQ_lt _ (by simpa using hne)
  rw [List.getD_eq_getElem _ _ hlt]
  exact List.getElem_mem hlt

/-- A successful `FFQS` step is the scan-and-assign of some unassigned
point of the dataset. -/
theorem ffqsStep_ok (labels : List ℤ) (d : ℕ → ℕ → ℚ) (n nc : ℕ)
    (s s1 : FState) (h : ffqsStep labels d n nc s = .ok s1) :
    ∃ newPt, newPt < labels.length ∧ s.nbrLabel.getD newPt 0 = 0 ∧
      s1 = ffqsAssign labels n nc newPt s := by
  unfold ffqsStep at h
  dsimp only at h
  split at h
  · exact absurd h (by simp)
  · split at h
    · exact absurd h (by simp)
    · rename_i hcand hnbr
      injection h with h3
      have hne : ((List.range labels.length).filter
          (fun p => decide (s.nbrLabel.getD p 0 = 0))) ≠ [] := by
        intro hnil
        rw [hnil] at hcand
        exact hcand rfl
      have hmem := getD_argmax_map_mem _ (fun c => minD (((List.range labels.length).filter
        (fun p => decide (0 < s.nbrLabel.getD p 0))).map (fun b => d b c))) hne
      have hsplit := List.mem_filter.mp hmem
      exact ⟨_, List.mem_range.mp hsplit.1, of_decide_eq_true hsplit.2, h3.symm⟩

/-- Rows at or beyond the spent budget counter stay at the `np.zeros`
initialization throughout an `FFQS` run. -/
theorem ffqsLoop_zero_tail (labels : List ℤ) (d : ℕ → ℕ → ℚ) (n nc : ℕ) :
    ∀ fuel s s2, ffqsLoop labels d n nc fuel s = .ok s2 →
      (∀ i, s.querCnt ≤ i → s.rows.getD i (0, 0, false) = (0, 0, false)) →
      (∀ i, s2.querCnt ≤ i → s2.rows.getD i (0, 0, false) = (0, 0, false)) := by
  intro fuel
  induction fuel with
  | zero =>
    intro s s2 h hP
    injection h with h2
    exact h2 ▸ hP
  | succ fuel ih =>
    intro s s2 h hP
    rw [ffqsLoop] at h
    split at h
    · rcases hstep : ffqsStep labels d n nc s with err | s1
      · rw [hstep] at h
        exact Except.noConfusion (h : (Except.error err : Except String FState) = .ok s2)
      · rw [hstep] at h
        have h : ffqsLoop labels d n nc fuel s1 = .ok s2 := h
        obtain ⟨newPt, _, _, rfl⟩ := ffqsStep_ok labels d n nc s s1 hstep
        refine ih _ s2 h ?_
        intro i hi
        rw [ffqsAssign_querCnt] at hi
        rw [ffqsAssign_rows]
        have hs : s.querCnt ≤ i := by
          have := ffqsScan_quer_mono labels s.nbrLabel labels.length n newPt
            (maxL s.nbrLabel) (maxL s.nbrLabel + 1)
            ⟨false, 1, s.querCnt, s.rows, false, 0⟩
          exact le_trans this hi
        unfold scanOf at hi ⊢
        rw [ffqsScan_rows_hi labels s.nbrLabel labels.length n newPt
          (maxL s.nbrLabel) (maxL s.nbrLabel + 1)
          ⟨false, 1, s.querCnt, s.rows, false, 0⟩ i (0, 0, false) hi]
        exact hP i hs
    · injection h with h2
      exact h2 ▸ hP

/-- C7 (amended): the fallback padding differs per strategy.  ACD pads
every query row beyond the selected merges with a uniformly random
pair from the injected source; FFQS leaves every constraint row beyond
its spent queries at the zero initialization `[0, 0, 0]` (in
particular the pair `(0, 0)`, not a random pair). -/
theorem c7_fallback_padding (labels : List ℤ) (d : ℕ → ℕ → ℚ)
    (n seedIx : ℕ) (s : FState) (N nc : ℕ) (children : List (ℕ × ℕ))
    (ms : Option ℕ) (rC rP : ℕ → ℕ)
    (hs : FFQS_state labels d n seedIx = .ok s) :
    (∀ i, s.querCnt ≤ i → s.rows.getD i (0, 0, false) = (0, 0, false)) ∧
    (∀ i, (acdSelect N children nc ms).length ≤ i → i < nc →
      (active_class_discovery N children nc ms rC rP).getD i [] =
        [(rP (2 * i) % N : ℤ), (rP (2 * i + 1) % N : ℤ)]) := by
  constructor
  · unfold FFQS_state at hs
    split at hs
    · exact absurd hs (by simp)
    · refine ffqsLoop_zero_tail labels d n (numClass labels) n
        (initF labels n seedIx) s hs ?_
      intro i _
      exact getD_replicate n i (0, 0, false)
  · intro i hsel hi
    unfold active_class_discovery
    have hlen : i < ((List.range nc).map (fun i =>
        if i < (acdSelect N children nc ms).length then
          [(((buildMerges N children).getD ((acdSelect N children nc ms).getD i 0)
              ([], [])).1.getD (rC (2 * i) %
              ((buildMerges N children).getD ((acdSelect N children nc ms).getD i 0)
                ([], [])).1.length) 0 : ℤ),
           (((buildMerges N children).getD ((acdSelect N children nc ms).getD i 0)
              ([], [])).2.getD (rC (2 * i + 1) %
              ((buildMerges N children).getD ((acdSelect N children nc ms).getD i 0)
                ([], [])).2.length) 0 : ℤ)]
        else [(rP (2 * i) % N : ℤ), (rP (2 * i + 1) % N : ℤ)])).length := by
      simpa using hi
    rw [List.getD_eq_getElem _ _ hlen]
    rw [List.getElem_map]
    rw [List.getElem_range]
    rw [if_neg (by omega)]

/-- Witness for C7: the two-point single-class FFQS run spends one
query and leaves row 1 zeroed, and the all-filtered ACD instance pads
row 0 with the random pair drawn from `rP k = k + 1`. -/
theorem c7_fallback_padding_witness :
    ([(1, 0, true), (0, 0, false)] : List (ℕ × ℕ × Bool)).getD 1 (0, 0, false) =
      (0, 0, false) ∧
    (active_class_discovery 4 [(0, 1), (2, 3), (4, 5)] 2 (some 5)
      (fun _ => 0) (fun k => k + 1)).getD 0 [] =
      [((fun k => k + 1) 0 % 4 : ℤ), ((fun k => k + 1) 1 % 4 : ℤ)] := by
  have h := c7_fallback_padding [(7:ℤ), 7] dUnit 2 0
    ⟨[1, 1], 1, [(1, 0, true), (0, 0, false)], true, [], []⟩
    4 2 [(0, 1), (2, 3), (4, 5)] (some 5) (fun _ => 0) (fun k => k + 1) (by decide)
  exact ⟨h.1 1 (by decide), h.2 0 (by decide) (by decide)⟩

/-- C7 counterexample to the claim as stated: on two identically
labeled points with budget 2, FFQS discovers the single class after
one query and stops; the remaining row of the returned constraint
matrix is the zero row `[0, 0, 0]` — its pair is the constant
`(0, 0)` regardless of any random draw, not a uniformly random pair
(the random-pair model used by `rand`/ACD would give `(1, 1)` under
an all-ones draw). -/
theorem c7_ffqs_zero_fill_counterexample :
    FFQS [(7:ℤ), 7] dUnit 2 0 = .ok ([[1, 0, 1], [0, 0, 0]], [1, 1]) ∧
    (([[1, 0, 1], [0, 0, 0]] : List (List ℤ)).getD 1 []).take 2 = [0, 0] ∧
    ([(0:ℤ), 0] ≠ [((1:ℕ) % 2 : ℤ), ((1:ℕ) % 2 : ℤ)]) := by
  refine ⟨by decide, rfl, by decide⟩

/-! ### Label-vector lemmas for the FFQS invariant -/

theorem set_oob {α : Type} (l : List α) (j : ℕ) (v : α) (h : l.length ≤ j) :
    l.set j v = l := by
  induction l generalizing j with
  | nil => rfl
  | cons a as ih =>
    cases j with
    | zero => simp at h
    | succ j => simp only [List.set]; rw [ih j (by simpa using h)]

theorem le_maxL (l : List ℕ) (x : ℕ) (hx : x ∈ l) : x ≤ maxL l := by
  induction l with
  | nil => simp at hx
  | cons a as ih =>
    rcases List.mem_cons.mp hx with rfl | hx
    · exact le_max_left _ _
    · exact le_trans (ih hx) (le_max_right _ _)

theorem maxL_le (l : List ℕ) (M : ℕ) (h : ∀ x ∈ l, x ≤ M) : maxL l ≤ M := by
  induction l with
  | nil => exact Nat.zero_le M
  | cons a as ih =>
    exact max_le (h a (List.mem_cons_self a as))
      (ih (fun x hx => h x (List.mem_cons_of_mem a hx)))

theorem getD_le_maxL (l : List ℕ) (i : ℕ) : l.getD i 0 ≤ maxL l := by
  by_cases h : i < l.length
  · refine le_maxL l _ ?_
    rw [List.getD_eq_getElem _ _ h]
    exact List.getElem_mem h
  · rw [List.getD_eq_default _ _ (le_of_not_lt h)]
    exact Nat.zero_le _

theorem maxL_set_le (l : List ℕ) (j v : ℕ) :
    maxL (l.set j v) ≤ max (maxL l) v := by
  refine maxL_le _ _ (fun x hx => ?_)
  rcases List.mem_or_eq_of_mem_set hx with hx | rfl
  · exact le_trans (le_maxL l x hx) (le_max_left _ _)
  · exact le_max_right _ _

theorem classPure_set_join (labels : List ℤ) (cl : List ℕ) (a b : ℕ)
    (hl : labels.getD a 0 = labels.getD b 0) (h : classPure labels cl) :
    classPure labels (cl.set a (cl.getD b 0)) := by
  by_cases hlen : a < cl.length
  · intro p q hpq hnz
    by_cases hp : p = a <;> by_cases hq : q = a
    · rw [hp, hq]
    · rw [hp] at hpq hnz ⊢
      rw [getD_set_self cl a _ 0 hlen] at hpq hnz
      rw [getD_set_ne cl a _ q 0 hq] at hpq
      rw [hl]
      exact h b q hpq hnz
    · rw [hq] at hpq ⊢
      rw [getD_set_self cl a _ 0 hlen] at hpq
      rw [getD_set_ne cl a _ p 0 hp] at hpq hnz
      rw [hl]
      exact h p b hpq hnz
    · rw [getD_set_ne cl a _ p 0 hp] at hpq hnz
      rw [getD_set_ne cl a _ q 0 hq] at hpq
      exact h p q hpq hnz
  · rw [set_oob cl a _ (le_of_not_lt hlen)]
    exact h

theorem classPure_set_fresh (labels : List ℤ) (cl : List ℕ) (a v : ℕ)
    (hfresh : ∀ p, cl.getD p 0 ≠ v) (h : classPure labels cl) :
    classPure labels (cl.set a v) := by
  by_cases hlen : a < cl.length
  · intro p q hpq hnz
    by_cases hp : p = a <;> by_cases hq : q = a
    · rw [hp, hq]
    · rw [hp] at hpq ⊢
      rw [getD_set_self cl a _ 0 hlen] at hpq
      rw [getD_set_ne cl a _ q 0 hq] at hpq
      exact absurd hpq.symm (hfresh q)
    · rw [hq] at hpq ⊢
      rw [getD_set_self cl a _ 0 hlen] at hpq
      rw [getD_set_ne cl a _ p 0 hp] at hpq
      exact absurd hpq (hfresh p)
    · rw [getD_set_ne cl a _ p 0 hp] at hpq hnz
      rw [getD_set_ne cl a _ q 0 hq] at hpq
      exact h p q hpq hnz
  · rw [set_oob cl a _ (le_of_not_lt hlen)]
    exact h

theorem hoodOf_ne_nil_iff (nbrLabel : List ℕ) (N k : ℕ) :
    hoodOf nbrLabel N k ≠ [] ↔ ∃ p, p < N ∧ nbrLabel.getD p 0 = k := by
  unfold hoodOf
  rw [Ne, List.filter_eq_nil_iff]
  push_neg
  constructor
  · rintro ⟨p, hp, hk⟩
    exact ⟨p, List.mem_range.mp hp, of_decide_eq_true hk⟩
  · rintro ⟨p, hp, hk⟩
    exact ⟨p, List.mem_range.mpr hp, decide_eq_true hk⟩

theorem repOf_label (nbrLabel : List ℕ) (N k : ℕ)
    (h : hoodOf nbrLabel N k ≠ []) :
    nbrLabel.getD (repOf nbrLabel N k) 0 = k ∧ repOf nbrLabel N k < N := by
  unfold repOf
  rcases hh : hoodOf nbrLabel N k with _ | ⟨r, rs⟩
  · exact absurd hh h
  · have hr : r ∈ hoodOf nbrLabel N k := by rw [hh]; exact List.mem_cons_self r rs
    have := List.mem_filter.mp hr
    exact ⟨of_decide_eq_true this.2, List.mem_range.mp this.1⟩

theorem distinctNonzero_le_maxL (l : List ℕ) : distinctNonzero l ≤ maxL l := by
  unfold distinctNonzero
  have hsub : l.toFinset.erase 0 ⊆ Finset.Icc 1 (maxL l) := by
    intro v hv
    have hv0 : v ≠ 0 := Finset.ne_of_mem_erase hv
    have hvl : v ∈ l := List.mem_toFinset.mp (Finset.mem_of_mem_erase hv)
    exact Finset.mem_Icc.mpr ⟨by omega, le_maxL l v hvl⟩
  calc (l.toFinset.erase 0).card ≤ (Finset.Icc 1 (maxL l)).card :=
        Finset.card_le_card hsub
    _ = maxL l := by rw [Nat.card_Icc]; omega

/-! ### Scan specification lemmas -/

theorem scanNext_constraint (labels : List ℤ) (nbrLabel : List ℕ)
    (N n newPt : ℕ) (st : ScanSt) :
    (scanNext labels nbrLabel N n newPt st).constraint =
      decide (labels.getD newPt 0 = labels.getD (repOf nbrLabel N st.nbrCnt) 0) := rfl

theorem scanNext_nbrCnt (labels : List ℤ) (nbrLabel : List ℕ)
    (N n newPt : ℕ) (st : ScanSt) :
    (scanNext labels nbrLabel N n newPt st).nbrCnt = st.nbrCnt + 1 := rfl

theorem scanNext_quer (labels : List ℤ) (nbrLabel : List ℕ)
    (N n newPt : ℕ) (st : ScanSt) :
    (scanNext labels nbrLabel N n newPt st).quer = st.quer + 1 := rfl

theorem scanNext_rows (labels : List ℤ) (nbrLabel : List ℕ)
    (N n newPt : ℕ) (st : ScanSt) :
    (scanNext labels nbrLabel N n newPt st).rows =
      if st.quer < n then
        st.rows.set st.quer (newPt, repOf nbrLabel N st.nbrCnt,
          decide (labels.getD newPt 0 = labels.getD (repOf nbrLabel N st.nbrCnt) 0))
      else st.rows := rfl

theorem scanNext_lastRec (labels : List ℤ) (nbrLabel : List ℕ)
    (N n newPt : ℕ) (st : ScanSt) :
    (scanNext labels nbrLabel N n newPt st).lastRec = decide (st.quer < n) := rfl

theorem scanNext_rep (labels : List ℤ) (nbrLabel : List ℕ)
    (N n newPt : ℕ) (st : ScanSt) :
    (scanNext labels nbrLabel N n newPt st).rep = repOf nbrLabel N st.nbrCnt := rfl

/-- A scan whose state already holds a "same" answer stops at once
(the loop guard `not constraint` fails). -/
theorem ffqsScan_stop (labels : List ℤ) (nbrLabel : List ℕ)
    (N n newPt maxLab : ℕ) :
    ∀ fuel st, st.constraint = true →
      ffqsScan labels nbrLabel N n newPt maxLab fuel st = st := by
  intro fuel st h
  cases fuel with
  | zero => rfl
  | succ fuel =>
    rw [ffqsScan, if_neg]
    rintro ⟨h1, _⟩
    rw [h] at h1
    exact Bool.noConfusion h1

theorem ffqsScan_rows_length (labels : List ℤ) (nbrLabel : List ℕ)
    (N n newPt maxLab : ℕ) :
    ∀ fuel st, (ffqsScan labels nbrLabel N n newPt maxLab fuel st).rows.length =
      st.rows.length := by
  intro fuel
  induction fuel with
  | zero => intro st; rfl
  | succ fuel ih =>
    intro st
    rw [ffqsScan]
    split
    · rw [ih]
      rw [scanNext_rows]
      split
      · rw [List.length_set]
      · rfl
    · rfl

theorem ffqsScan_rows_lo (labels : List ℤ) (nbrLabel : List ℕ)
    (N n newPt maxLab : ℕ) :
    ∀ fuel st i dflt, i < st.quer →
      (ffqsScan labels nbrLabel N n newPt maxLab fuel st).rows.getD i dflt =
        st.rows.getD i dflt := by
  intro fuel
  induction fuel with
  | zero => intro st i dflt _; rfl
  | succ fuel ih =>
    intro st i dflt hi
    rw [ffqsScan]
    split
    · rw [ih _ i dflt (by rw [scanNext_quer]; omega)]
      rw [scanNext_rows]
      split
      · exact getD_set_ne _ _ _ _ _ (by omega)
      · rfl
    · rfl

theorem ffqsScan_quer_succ (labels : List ℤ) (nbrLabel : List ℕ)
    (N n newPt maxLab : ℕ) (fuel : ℕ) (st : ScanSt)
    (h : st.constraint = false) (h2 : st.nbrCnt ≤ maxLab) (hf : 1 ≤ fuel) :
    st.quer + 1 ≤ (ffqsScan labels nbrLabel N n newPt maxLab fuel st).quer := by
  cases fuel with
  | zero => omega
  | succ fuel =>
    rw [ffqsScan, if_pos ⟨h, h2⟩]
    have := ffqsScan_quer_mono labels nbrLabel N n newPt maxLab fuel
      (scanNext labels nbrLabel N n newPt st)
    rw [scanNext_quer] at this
    exact this

/-- The match specification of the scan: when the scan ends with a
"same" answer, the matched index `nbr_cnt - 1` is an existing
neighborhood, the recorded representative is its `this_hood[0]` with
that label and the same true label as `newPt`, and when the matching
query fell inside the budget it sits recorded at row `quer - 1`. -/
theorem ffqsScan_match_spec (labels : List ℤ) (nbrLabel : List ℕ)
    (N n newPt maxLab : ℕ)
    (Hcont : ∀ k, 1 ≤ k → k ≤ maxLab → hoodOf nbrLabel N k ≠ []) :
    ∀ fuel st, st.constraint = false → 1 ≤ st.nbrCnt → st.rows.length = n →
      (ffqsScan labels nbrLabel N n newPt maxLab fuel st).constraint = true →
      (1 ≤ (ffqsScan labels nbrLabel N n newPt maxLab fuel st).nbrCnt - 1 ∧
       (ffqsScan labels nbrLabel N n newPt maxLab fuel st).nbrCnt - 1 ≤ maxLab ∧
       nbrLabel.getD (ffqsScan labels nbrLabel N n newPt maxLab fuel st).rep 0 =
         (ffqsScan labels nbrLabel N n newPt maxLab fuel st).nbrCnt - 1 ∧
       (ffqsScan labels nbrLabel N n newPt maxLab fuel st).rep < N ∧
       labels.getD newPt 0 =
         labels.getD (ffqsScan labels nbrLabel N n newPt maxLab fuel st).rep 0 ∧
       ((ffqsScan labels nbrLabel N n newPt maxLab fuel st).lastRec = true →
         (ffqsScan labels nbrLabel N n newPt maxLab fuel st).rows.getD
             ((ffqsScan labels nbrLabel N n newPt maxLab fuel st).quer - 1)
             (0, 0, false) =
           (newPt, (ffqsScan labels nbrLabel N n newPt maxLab fuel st).rep, true) ∧
         (ffqsScan labels nbrLabel N n newPt maxLab fuel st).quer - 1 < n ∧
         st.quer ≤ (ffqsScan labels nbrLabel N n newPt maxLab fuel st).quer - 1)) := by
  intro fuel
  induction fuel with
  | zero =>
    intro st hfalse _ _ hc
    exact absurd (hfalse ▸ hc) (by simp)
  | succ fuel ih =>
    intro st hfalse h1 hlen hc
    by_cases hg : st.nbrCnt ≤ maxLab
    · rw [ffqsScan, if_pos ⟨hfalse, hg⟩] at hc ⊢
      by_cases hc2 : labels.getD newPt 0 = labels.getD (repOf nbrLabel N st.nbrCnt) 0
      · have hstop : (scanNext labels nbrLabel N n newPt st).constraint = true := by
          rw [scanNext_constraint]
          exact decide_eq_true hc2
        rw [ffqsScan_stop labels nbrLabel N n newPt maxLab fuel _ hstop]
        have hrep := repOf_label nbrLabel N st.nbrCnt (Hcont st.nbrCnt h1 hg)
        rw [scanNext_nbrCnt, scanNext_rep]
        refine ⟨by omega, by omega, by simpa using hrep.1, hrep.2, hc2, ?_⟩
        intro hlr
        rw [scanNext_lastRec] at hlr
        have hqn : st.quer < n := of_decide_eq_true hlr
        rw [scanNext_rows, scanNext_quer, if_pos hqn]
        refine ⟨?_, by omega, by omega⟩
        have : st.quer + 1 - 1 = st.quer := by omega
        rw [this, getD_set_self _ _ _ _ (by rw [hlen]; exact hqn)]
        rw [decide_eq_true hc2]
      · have hfalse2 : (scanNext labels nbrLabel N n newPt st).constraint = false := by
          rw [scanNext_constraint]
          exact decide_eq_false hc2
        have hlen2 : (scanNext labels nbrLabel N n newPt st).rows.length = n := by
          rw [scanNext_rows]
          split
          · rw [List.length_set]; exact hlen
          · exact hlen
        have := ih (scanNext labels nbrLabel N n newPt st) hfalse2
          (by rw [scanNext_nbrCnt]; omega) hlen2 hc
        refine ⟨this.1, this.2.1, this.2.2.1, this.2.2.2.1, this.2.2.2.2.1, ?_⟩
        intro hlr
        have h6 := this.2.2.2.2.2 hlr
        refine ⟨h6.1, h6.2.1, ?_⟩
        have := h6.2.2
        rw [scanNext_quer] at this
        omega
    · rw [ffqsScan, if_neg (by rintro ⟨_, hh⟩; exact hg hh)] at hc
      exact absurd (hfalse ▸ hc) (by simp)

/-! ### Scan lemmas at the `scanOf` level -/

theorem scanOf_rows_length (labels : List ℤ) (n newPt : ℕ) (s : FState)
    (hrows : s.rows.length = n) : (scanOf labels n newPt s).rows.length = n := by
  unfold scanOf
  rw [ffqsScan_rows_length]
  exact hrows

theorem scanOf_quer_succ (labels : List ℤ) (n newPt : ℕ) (s : FState)
    (hmax1 : 1 ≤ maxL s.nbrLabel) :
    s.querCnt + 1 ≤ (scanOf labels n newPt s).quer := by
  unfold scanOf
  exact ffqsScan_quer_succ labels s.nbrLabel labels.length n newPt
    (maxL s.nbrLabel) (maxL s.nbrLabel + 1) ⟨false, 1, s.querCnt, s.rows, false, 0⟩
    rfl hmax1 (by omega)

theorem scanOf_rows_lo (labels : List ℤ) (n newPt : ℕ) (s : FState)
    (i : ℕ) (dflt : ℕ × ℕ × Bool) (hi : i < s.querCnt) :
    (scanOf labels n newPt s).rows.getD i dflt = s.rows.getD i dflt := by
  unfold scanOf
  exact ffqsScan_rows_lo labels s.nbrLabel labels.length n newPt
    (maxL s.nbrLabel) (maxL s.nbrLabel + 1) _ i dflt hi

theorem scanOf_match_spec (labels : List ℤ) (n newPt : ℕ) (s : FState)
    (Hcont : ∀ k, 1 ≤ k → k ≤ maxL s.nbrLabel →
      hoodOf s.nbrLabel labels.length k ≠ [])
    (hrows : s.rows.length = n)
    (hc : (scanOf labels n newPt s).constraint = true) :
    1 ≤ (scanOf labels n newPt s).nbrCnt - 1 ∧
    (scanOf labels n newPt s).nbrCnt - 1 ≤ maxL s.nbrLabel ∧
    s.nbrLabel.getD (scanOf labels n newPt s).rep 0 =
      (scanOf labels n newPt s).nbrCnt - 1 ∧
    (scanOf labels n newPt s).rep < labels.length ∧
    labels.getD newPt 0 = labels.getD (scanOf labels n newPt s).rep 0 ∧
    ((scanOf labels n newPt s).lastRec = true →
      (scanOf labels n newPt s).rows.getD ((scanOf labels n newPt s).quer - 1)
          (0, 0, false) =
        (newPt, (scanOf labels n newPt s).rep, true) ∧
      (scanOf labels n newPt s).quer - 1 < n ∧
      s.querCnt ≤ (scanOf labels n newPt s).quer - 1) := by
  unfold scanOf at hc ⊢
  exact ffqsScan_match_spec labels s.nbrLabel labels.length n newPt
    (maxL s.nbrLabel) Hcont (maxL s.nbrLabel + 1)
    ⟨false, 1, s.querCnt, s.rows, false, 0⟩ rfl (le_refl 1) hrows hc

/-! ### Preservation of the FFQS invariant -/

/-- `FInv` does not mention `foundAll`, so it transfers over the
early-stop flag refresh. -/
theorem FInv_foundAll (labels : List ℤ) (n seed : ℕ) (s : FState) (b : Bool)
    (h : FInv labels n seed s) :
    FInv labels n seed { s with foundAll := b } := h

/-- One scan-and-assign step of `FFQS` preserves the loop invariant,
provided budget remains and the assigned point was unassigned. -/
theorem FInv_assign (labels : List ℤ) (n nc seed newPt : ℕ) (s : FState)
    (hinv : FInv labels n seed s) (hq : s.querCnt < n)
    (hnp : newPt < labels.length) (hnp0 : s.nbrLabel.getD newPt 0 = 0) :
    FInv labels n seed (ffqsAssign labels n nc newPt s) := by
  obtain ⟨hlen, hrows, hseed, hq1, hn1, hcont, hpure, hjust⟩ := hinv
  have hmax1 : 1 ≤ maxL s.nbrLabel := by
    have := getD_le_maxL s.nbrLabel seed
    omega
  have hsclen := scanOf_rows_length labels n newPt s hrows
  have hscq := scanOf_quer_succ labels n newPt s hmax1
  have hseednp : seed ≠ newPt := by
    intro hh
    rw [hh, hnp0] at hseed
    exact Nat.noConfusion hseed
  refine FInv_foundAll labels n seed _ _ ?_
  by_cases hc : (scanOf labels n newPt s).constraint = true
  · -- matched an existing neighborhood
    obtain ⟨hk1, hk2, hreplbl, hrepN, hlabeq, hrec⟩ :=
      scanOf_match_spec labels n newPt s hcont hrows hc
    have hrepnp : (scanOf labels n newPt s).rep ≠ newPt := by
      intro hh
      rw [hh, hnp0] at hreplbl
      omega
    have hmax2 : maxL (s.nbrLabel.set newPt ((scanOf labels n newPt s).nbrCnt - 1)) ≤
        maxL s.nbrLabel :=
      le_trans (maxL_set_le _ _ _) (max_le (le_refl _) hk2)
    rw [if_pos hc]
    unfold FInv
    refine ⟨?_, hsclen, ?_, ?_, ?_, ?_, ?_, ?_⟩
    · show (s.nbrLabel.set newPt _).length = labels.length
      rw [List.length_set]; exact hlen
    · show (s.nbrLabel.set newPt _).getD seed 0 = 1
      rw [getD_set_ne _ _ _ _ _ hseednp]; exact hseed
    · show maxL (s.nbrLabel.set newPt _) ≤ (scanOf labels n newPt s).quer + 1
      omega
    · show maxL (s.nbrLabel.set newPt _) ≤ n + 1
      omega
    · -- contiguity
      intro k2 h12 h22
      have h23 : k2 ≤ maxL s.nbrLabel := le_trans h22 hmax2
      obtain ⟨p, hpN, hpk⟩ := (hoodOf_ne_nil_iff _ _ _).mp (hcont k2 h12 h23)
      refine (hoodOf_ne_nil_iff _ _ _).mpr ⟨p, hpN, ?_⟩
      have hpnp : p ≠ newPt := by
        intro hh
        rw [hh, hnp0] at hpk
        omega
      rw [getD_set_ne _ _ _ _ _ hpnp]; exact hpk
    · -- purity
      show classPure labels (s.nbrLabel.set newPt _)
      rw [← hreplbl]
      exact classPure_set_join labels s.nbrLabel newPt _ hlabeq hpure
    · -- justification
      dsimp only
      intro p hp
      by_cases hpn : p = newPt
      · rw [hpn]
        by_cases hlr : (scanOf labels n newPt s).lastRec = true
        · obtain ⟨hrow, hin, hge⟩ := hrec hlr
          refine Or.inr (Or.inr (Or.inr
            ⟨(scanOf labels n newPt s).rep, (scanOf labels n newPt s).quer - 1,
              by omega, hin, hrow, ?_, hrepnp⟩))
          show (s.nbrLabel.set newPt _).getD (scanOf labels n newPt s).rep 0 =
            (s.nbrLabel.set newPt _).getD newPt 0
          rw [getD_set_ne _ _ _ _ _ hrepnp,
            getD_set_self _ _ _ _ (by rw [hlen]; exact hnp)]
          exact hreplbl
        · refine Or.inr (Or.inr (Or.inl ?_))
          show newPt ∈ (if (scanOf labels n newPt s).lastRec then s.unrecorded
            else newPt :: s.unrecorded)
          rw [if_neg hlr]
          exact List.mem_cons_self _ _
      · have hp2 : s.nbrLabel.getD p 0 ≠ 0 := by
          have := getD_set_ne s.nbrLabel newPt
            ((scanOf labels n newPt s).nbrCnt - 1) p 0 hpn
          rw [this] at hp
          exact hp
        rcases hjust p hp2 with hps | hpf | hpu | ⟨j, i, hiq, hin, hrow, hlbl, hji⟩
        · exact Or.inl hps
        · exact Or.inr (Or.inl hpf)
        · refine Or.inr (Or.inr (Or.inl ?_))
          show p ∈ (if (scanOf labels n newPt s).lastRec then s.unrecorded
            else newPt :: s.unrecorded)
          split
          · exact hpu
          · exact List.mem_cons_of_mem _ hpu
        · have hjnp : j ≠ newPt := by
            intro hh
            rw [hh, hnp0] at hlbl
            exact hp2 hlbl.symm
          refine Or.inr (Or.inr (Or.inr ⟨j, i, by omega, hin, ?_, ?_, hji⟩))
          · rw [scanOf_rows_lo labels n newPt s i _ hiq]
            exact hrow
          · rw [getD_set_ne _ _ _ _ _ hjnp, getD_set_ne _ _ _ _ _ hpn]
            exact hlbl
  · -- no match: a new neighborhood is founded
    have hfresh : ∀ p, s.nbrLabel.getD p 0 ≠ maxL s.nbrLabel + 1 := by
      intro p
      have := getD_le_maxL s.nbrLabel p
      omega
    have hmax2 : maxL (s.nbrLabel.set newPt (maxL s.nbrLabel + 1)) ≤
        maxL s.nbrLabel + 1 :=
      le_trans (maxL_set_le _ _ _) (max_le (by omega) (le_refl _))
    rw [if_neg hc]
    unfold FInv
    refine ⟨?_, hsclen, ?_, ?_, ?_, ?_, ?_, ?_⟩
    · show (s.nbrLabel.set newPt _).length = labels.length
      rw [List.length_set]; exact hlen
    · show (s.nbrLabel.set newPt _).getD seed 0 = 1
      rw [getD_set_ne _ _ _ _ _ hseednp]; exact hseed
    · show maxL (s.nbrLabel.set newPt _) ≤ (scanOf labels n newPt s).quer + 1
      omega
    · show maxL (s.nbrLabel.set newPt _) ≤ n + 1
      omega
    · -- contiguity
      intro k2 h12 h22
      have h23 : k2 ≤ maxL s.nbrLabel + 1 := le_trans h22 hmax2
      by_cases hk2 : k2 ≤ maxL s.nbrLabel
      · obtain ⟨p, hpN, hpk⟩ := (hoodOf_ne_nil_iff _ _ _).mp (hcont k2 h12 hk2)
        refine (hoodOf_ne_nil_iff _ _ _).mpr ⟨p, hpN, ?_⟩
        have hpnp : p ≠ newPt := by
          intro hh
          rw [hh, hnp0] at hpk
          omega
        rw [getD_set_ne _ _ _ _ _ hpnp]; exact hpk
      · have hk3 : k2 = maxL s.nbrLabel + 1 := by omega
        refine (hoodOf_ne_nil_iff _ _ _).mpr ⟨newPt, hnp, ?_⟩
        rw [getD_set_self _ _ _ _ (by rw [hlen]; exact hnp), hk3]
    · -- purity
      exact classPure_set_fresh labels s.nbrLabel newPt _ hfresh hpure
    · -- justification
      dsimp only
      intro p hp
      by_cases hpn : p = newPt
      · exact Or.inr (Or.inl (hpn ▸ List.mem_cons_self _ _))
      · have hp2 : s.nbrLabel.getD p 0 ≠ 0 := by
          have := getD_set_ne s.nbrLabel newPt (maxL s.nbrLabel + 1) p 0 hpn
          rw [this] at hp
          exact hp
        rcases hjust p hp2 with hps | hpf | hpu | ⟨j, i, hiq, hin, hrow, hlbl, hji⟩
        · exact Or.inl hps
        · exact Or.inr (Or.inl (List.mem_cons_of_mem _ hpf))
        · exact Or.inr (Or.inr (Or.inl hpu))
        · have hjnp : j ≠ newPt := by
            intro hh
            rw [hh, hnp0] at hlbl
            exact hp2 hlbl.symm
          refine Or.inr (Or.inr (Or.inr ⟨j, i, by omega, hin, ?_, ?_, hji⟩))
          · rw [scanOf_rows_lo labels n newPt s i _ hiq]
            exact hrow
          · rw [getD_set_ne _ _ _ _ _ hjnp, getD_set_ne _ _ _ _ _ hpn]
            exact hlbl

/-- The initial `FFQS` state satisfies the loop invariant. -/
theorem FInv_init (labels : List ℤ) (n seedIx : ℕ) (hN : ¬ labels.length = 0) :
    FInv labels n (seedIx % labels.length) (initF labels n seedIx) := by
  have hsN : seedIx % labels.length < labels.length :=
    Nat.mod_lt _ (Nat.pos_of_ne_zero hN)
  have hgets : ∀ p, (initF labels n seedIx).nbrLabel.getD p 0 =
      if p = seedIx % labels.length then 1 else 0 := by
    intro p
    unfold initF
    dsimp only
    by_cases hp : p = seedIx % labels.length
    · rw [hp, getD_set_self _ _ _ _ (by rw [List.length_replicate]; exact hsN),
        if_pos rfl]
    · rw [getD_set_ne _ _ _ _ _ hp, if_neg hp, getD_replicate]
  have hmax : maxL (initF labels n seedIx).nbrLabel ≤ 1 := by
    refine maxL_le _ _ (fun x hx => ?_)
    rcases List.mem_or_eq_of_mem_set hx with hx | rfl
    · rw [List.eq_of_mem_replicate hx]
      omega
    · exact le_refl 1
  refine ⟨?_, ?_, ?_, by omega, by omega, ?_, ?_, ?_⟩
  · show ((List.replicate labels.length 0).set _ 1).length = labels.length
    rw [List.length_set, List.length_replicate]
  · exact List.length_replicate n _
  · rw [hgets, if_pos rfl]
  · intro k hk1 hk2
    have hk : k = 1 := by omega
    refine (hoodOf_ne_nil_iff _ _ _).mpr ⟨seedIx % labels.length, hsN, ?_⟩
    rw [hgets, if_pos rfl, hk]
  · intro p q hpq hnz
    rw [hgets p, hgets q] at hpq
    rw [hgets p] at hnz
    by_cases hp : p = seedIx % labels.length
    · by_cases hq2 : q = seedIx % labels.length
      · rw [hp, hq2]
      · rw [if_pos hp, if_neg hq2] at hpq
        exact absurd hpq (by omega)
    · rw [if_neg hp] at hnz
      exact absurd rfl hnz
  · intro p hp
    rw [hgets] at hp
    by_cases hps : p = seedIx % labels.length
    · exact Or.inl hps
    · rw [if_neg hps] at hp
      exact absurd rfl hp

/-- The `FFQS` loop preserves the invariant. -/
theorem ffqsLoop_inv (labels : List ℤ) (d : ℕ → ℕ → ℚ) (n nc seed : ℕ) :
    ∀ fuel s s2, ffqsLoop labels d n nc fuel s = .ok s2 →
      FInv labels n seed s → FInv labels n seed s2 := by
  intro fuel
  induction fuel with
  | zero =>
    intro s s2 h hinv
    injection h with h2
    exact h2 ▸ hinv
  | succ fuel ih =>
    intro s s2 h hinv
    rw [ffqsLoop] at h
    split at h
    · rename_i hguard
      rcases hstep : ffqsStep labels d n nc s with err | s1
      · rw [hstep] at h
        exact Except.noConfusion (h : (Except.error err : Except String FState) = .ok s2)
      · rw [hstep] at h
        have h : ffqsLoop labels d n nc fuel s1 = .ok s2 := h
        obtain ⟨newPt, hnpN, hnp0, rfl⟩ := ffqsStep_ok labels d n nc s s1 hstep
        exact ih _ s2 h (FInv_assign labels n nc seed newPt s hinv hguard.1 hnpN hnp0)
    · injection h with h2
      exact h2 ▸ hinv

/-- Every successful `FFQS` run satisfies the invariant. -/
theorem ffqs_state_inv (labels : List ℤ) (d : ℕ → ℕ → ℚ) (n seedIx : ℕ)
    (s : FState) (h : FFQS_state labels d n seedIx = .ok s) :
    FInv labels n (seedIx % labels.length) s := by
  unfold FFQS_state at h
  split at h
  · exact absurd h (by simp)
  · rename_i hN
    exact ffqsLoop_inv labels d n (numClass labels) (seedIx % labels.length) n
      _ s h (FInv_init labels n seedIx hN)

/-! ### Claim C4 -/

/-- C4 (amended): for every successful FFQS run, the neighborhood-label
vector contains at most `n_constraints + 1` distinct nonzero values;
and every point with a nonzero label is the seed, or founded a
brand-new neighborhood (recording no "same" row), or had its matching
"same" query issued beyond the budget (hence unrecorded), or is
justified by a recorded constraint row `(p, j, 1)` with `j` another
(earlier assigned) member of `p`'s neighborhood.  The claim as stated
omits the founder and budget-overrun exceptions. -/
theorem c4_ffqs_labels_justified (labels : List ℤ) (d : ℕ → ℕ → ℚ)
    (n seedIx : ℕ) (s : FState) (h : FFQS_state labels d n seedIx = .ok s) :
    distinctNonzero s.nbrLabel ≤ n + 1 ∧
    ∀ p, s.nbrLabel.getD p 0 ≠ 0 →
      p = seedIx % labels.length ∨ p ∈ s.founders ∨ p ∈ s.unrecorded ∨
      ∃ j i, i < n ∧ s.rows.getD i (0, 0, false) = (p, j, true) ∧
        s.nbrLabel.getD j 0 = s.nbrLabel.getD p 0 ∧ j ≠ p := by
  obtain ⟨_, _, _, _, hn1, _, _, hjust⟩ := ffqs_state_inv labels d n seedIx s h
  refine ⟨le_trans (distinctNonzero_le_maxL _) hn1, ?_⟩
  intro p hp
  rcases hjust p hp with h1 | h2 | h3 | ⟨j, i, _, hin, hrow, hlbl, hji⟩
  · exact Or.inl h1
  · exact Or.inr (Or.inl h2)
  · exact Or.inr (Or.inr (Or.inl h3))
  · exact Or.inr (Or.inr (Or.inr ⟨j, i, hin, hrow, hlbl, hji⟩))

/-- Witness for C4 at the concrete two-class run: point 0 is the seed
(label 1), point 1 founded neighborhood 2 after its "different" answer
and is in the ghost founder list. -/
theorem c4_ffqs_labels_justified_witness :
    distinctNonzero [1, 2] ≤ 2 + 1 ∧
    ∀ p, ([1, 2] : List ℕ).getD p 0 ≠ 0 →
      p = 0 % 2 ∨ p ∈ [1] ∨ p ∈ ([] : List ℕ) ∨
      ∃ j i, i < 2 ∧
        ([(1, 0, false), (0, 0, false)] : List (ℕ × ℕ × Bool)).getD i (0, 0, false) =
          (p, j, true) ∧
        ([1, 2] : List ℕ).getD j 0 = ([1, 2] : List ℕ).getD p 0 ∧ j ≠ p :=
  c4_ffqs_labels_justified [(0:ℤ), 1] dUnit 2 0
    ⟨[1, 2], 1, [(1, 0, false), (0, 0, false)], true, [1], []⟩ (by decide)

/-- C4 counterexample to the claim as stated: on labels `[0, 1]` with
budget 2 and seed point 0, point 1 opens neighborhood 2 after a single
"different" answer.  Point 1 carries a nonzero label and is not the
seed, yet no recorded row pairs it with any point under a "same"
(link = 1) answer: the constraint matrix holds only `(1, 0, 0)` and
the zero row. -/
theorem c4_founder_unjustified_counterexample :
    FFQS_state [(0:ℤ), 1] dUnit 2 0 =
      .ok ⟨[1, 2], 1, [(1, 0, false), (0, 0, false)], true, [1], []⟩ ∧
    ([1, 2] : List ℕ).getD 1 0 = 2 ∧ (1 : ℕ) ≠ 0 % 2 ∧
    ([(1, 0, false), (0, 0, false)] : List (ℕ × ℕ × Bool)).filter
      (fun r => (decide (r.1 = 1) || decide (r.2.1 = 1)) && r.2.2) = [] := by
  exact ⟨by decide, rfl, by decide, rfl⟩

/-! ### Claim C10 -/

theorem except_bind_ok {α β : Type} (A : Except String α) (f : α → Except String β)
    (b : β) (h : (A >>= f) = .ok b) : ∃ a, A = .ok a ∧ f a = .ok b := by
  cases A with
  | error e =>
    exact Except.noConfusion (h : (Except.error e : Except String β) = .ok b)
  | ok a => exact ⟨a, rfl, h⟩

theorem except_map_ok {α β : Type} (A : Except String α) (f : α → β) (b : β)
    (h : A.map f = .ok b) : ∃ a, A = .ok a ∧ b = f a := by
  cases A with
  | error e =>
    exact Except.noConfusion (h : (Except.error e : Except String β) = .ok b)
  | ok a =>
    refine ⟨a, rfl, ?_⟩
    injection (h : (Except.ok (f a) : Except String β) = .ok b) with h2
    exact h2.symm

/-- The `MMFFQS` per-candidate query scan preserves class purity: the
only live assignment copies the label of a representative whose true
label just matched the candidate's; the `k == num_clus` assignment is
dead code inside `for k in range(num_clus)`. -/
theorem mmScan_pure (labels : List ℤ) (n numClus maxClus q : ℕ)
    (indVec : List ℕ) :
    ∀ fuel k cl qc rows, classPure labels cl →
      classPure labels
        (mmScan labels n numClus maxClus q indVec fuel k (cl, qc, rows)).1 := by
  intro fuel
  induction fuel with
  | zero => intro k cl qc rows h; exact h
  | succ fuel ih =>
    intro k cl qc rows h
    rw [mmScan]
    split
    · rename_i hk
      dsimp only
      by_cases hl : labels.getD q 0 = labels.getD (indVec.getD k 0) 0
      · rw [if_pos (decide_eq_true hl)]
        exact classPure_set_join labels cl q _ hl h
      · rw [if_neg (fun hh => hl (of_decide_eq_true hh))]
        rw [if_neg (Nat.ne_of_lt hk)]
        split
        · exact h
        · exact ih (k + 1) cl _ _ h
    · exact h

/-- One `MMFFQS` loop iteration preserves class purity. -/
theorem mmStep_pure (labels : List ℤ) (aff : ℕ → ℕ → ℚ) (n : ℕ)
    (clusList : List ℕ) (rnd : ℕ → ℕ) (st st2 : MState)
    (h : mmStep labels aff n clusList rnd st = .ok st2)
    (hp : classPure labels st.clusLabel) : classPure labels st2.clusLabel := by
  unfold mmStep at h
  obtain ⟨q, _, hB⟩ := except_bind_ok _ _ _ h
  obtain ⟨simInd, _, hst2⟩ := except_map_ok _ _ _ hB
  rw [hst2]
  dsimp only
  exact mmScan_pure labels n clusList.length (maxL clusList) q _ clusList.length 0
    st.clusLabel st.queryCnt st.rows hp

/-- The `MMFFQS` exploitation loop preserves class purity. -/
theorem mmLoop_pure (labels : List ℤ) (aff : ℕ → ℕ → ℚ) (n : ℕ)
    (clusList : List ℕ) (rnd : ℕ → ℕ) :
    ∀ fuel st st2, mmLoop labels aff n clusList rnd fuel st = .ok st2 →
      classPure labels st.clusLabel → classPure labels st2.clusLabel := by
  intro fuel
  induction fuel with
  | zero =>
    intro st st2 h hp
    injection h with h2
    exact h2 ▸ hp
  | succ fuel ih =>
    intro st st2 h hp
    rw [mmLoop] at h
    split at h
    · obtain ⟨st1, hA, hB⟩ := except_bind_ok _ _ _ h
      exact ih st1 st2 hB (mmStep_pure labels aff n clusList rnd st st1 hA hp)
    · injection h with h2
      exact h2 ▸ hp

/-- C10 (confirmed): the neighborhood-label vectors built by FFQS and
MMFFQS are class-pure — any two points with the same nonzero label
have equal true labels.  A point only ever receives an existing label
after a "same" oracle answer against a member of that neighborhood. -/
theorem c10_neighborhood_purity (labels : List ℤ) (d : ℕ → ℕ → ℚ)
    (n seedIx : ℕ) (rnd : ℕ → ℕ) (s : FState) (ms : MState)
    (h1 : FFQS_state labels d n seedIx = .ok s)
    (h2 : MMFFQS_state labels d n seedIx rnd = .ok ms) :
    classPure labels s.nbrLabel ∧ classPure labels ms.clusLabel := by
  have hpure : classPure labels s.nbrLabel :=
    (ffqs_state_inv labels d n seedIx s h1).2.2.2.2.2.2.1
  refine ⟨hpure, ?_⟩
  unfold MMFFQS_state at h2
  obtain ⟨fs, hA, hB⟩ := except_bind_ok _ _ _ h2
  have hfs : fs = s := by
    injection (hA.symm.trans h1) with h3
  subst hfs
  dsimp only at hB
  exact mmLoop_pure labels (affQ d) n _ rnd n _ ms hB hpure

/-- Witness for C10: the concrete two-point, two-class run.  FFQS ends
with `nbr_label = [1, 2]` and MMFFQS with `clus_label = [1, 2]`; both
are class-pure for `labels = [0, 1]`. -/
theorem c10_neighborhood_purity_witness :
    classPure [(0:ℤ), 1] [1, 2] ∧ classPure [(0:ℤ), 1] [1, 2] :=
  c10_neighborhood_purity [(0:ℤ), 1] dUnit 2 0 (fun _ => 0)
    ⟨[1, 2], 1, [(1, 0, false), (0, 0, false)], true, [1], []⟩
    ⟨[1, 2], 2, [(1, 0, false), (0, 0, true)], [0, 1, 0]⟩
    (by decide) (by decide)

end RobustClust
